import Mathlib

/-!
Verification of the oledvec engine (`tools/oledvec/engine-python/oledvec`).

This file gives a shallow embedding of the parts of the engine that the
specification talks about, translated from the Python source:

* `export_svg.py`   : `bitmap_to_svg_rectangles` (run-length seeding plus the
  iterated greedy merge loop) and `export_svg`;
* `detect.py`       : `qualify_oled` and the candidate-selection loop of
  `detect_oled_bbox`;
* `process.py`      : `binarize`;
* `shapes.py`       : `hash_component` (flattening of a component bitmap);
* `state.py`        : `update_item_state` over a JSON-like value model;
* `server.py`       : the manual-status path of the state-update endpoint and
  the pure data flow of `rerun_item`.

Machine integers of the Python code are modelled as `Nat`/`Int`; Python floats
appear only in order comparisons here, so they are modelled as `ℚ`.  Calls into
external libraries (OpenCV, numpy aggregates, hashlib) are modelled as explicit
function parameters, never as stubs that hide repository logic.
-/

/-- Axis-aligned rectangle `(x, y, width, height)` exactly as the tuples built
by `bitmap_to_svg_rectangles` in `export_svg.py`. -/
structure Rect where
  x : Nat
  y : Nat
  w : Nat
  h : Nat
  deriving DecidableEq, Repr

/-- Pixel `(px, py)` lies inside rectangle `r` (half-open on both axes). -/
def inRect (r : Rect) (px py : Nat) : Prop :=
  r.x ≤ px ∧ px < r.x + r.w ∧ r.y ≤ py ∧ py < r.y + r.h

instance (r : Rect) (px py : Nat) : Decidable (inRect r px py) := by
  unfold inRect; infer_instance

/-- Some rectangle of the list contains pixel `(px, py)`. -/
def unionMem (l : List Rect) (px py : Nat) : Prop :=
  ∃ r ∈ l, inRect r px py

/-- Two rectangles share no pixel. -/
def rectDisjoint (a b : Rect) : Prop :=
  ∀ px py, inRect a px py → inRect b px py → False

/-- A bitmap is a list of rows of booleans; `bmGet bm px py` is `bitmap[py][px]`
with `false` outside the grid (the Python code only indexes in range). -/
def bmGet (bm : List (List Bool)) (px py : Nat) : Bool :=
  (bm.getD py []).getD px false

/-- Run-length scan of one bitmap row, the state machine equivalent of the
`while x < w` loop of step 1 of `bitmap_to_svg_rectangles`: `x` is the current
column, the `Option` state is the currently open run `(start_x, width so far)`.
Returns the maximal runs of `true` pixels as `(start_x, width)` pairs, left to
right. -/
def scanRow : List Bool → Nat → Option (Nat × Nat) → List (Nat × Nat)
  | [], _, none => []
  | [], _, some run => [run]
  | true :: rest, x, none => scanRow rest (x + 1) (some (x, 1))
  | true :: rest, x, some (s, n) => scanRow rest (x + 1) (some (s, n + 1))
  | false :: rest, x, none => scanRow rest (x + 1) none
  | false :: rest, x, some run => run :: scanRow rest (x + 1) none

/-- The height-1 seed rectangles of row `y` (step 1 of the algorithm). -/
def rowRects (y : Nat) (row : List Bool) : List Rect :=
  (scanRow row 0 none).map fun q => ⟨q.1, y, q.2, 1⟩

/-- All seed rectangles, row-major (step 1 of `bitmap_to_svg_rectangles`). -/
def seedRects (bm : List (List Bool)) : List Rect :=
  (bm.enum.map fun p => rowRects p.1 p.2).flatten

/-- Vertical-merge test of step 2: same `x`, same width, and the candidate `r`
is directly below or directly above the accumulated rectangle `m`. -/
def vAdj (m r : Rect) : Bool :=
  r.x == m.x && r.w == m.w && (r.y == m.y + m.h || r.y + r.h == m.y)

/-- The vertically merged rectangle (the two branches of the vertical merge). -/
def vFuse (m r : Rect) : Rect :=
  if r.y == m.y + m.h then ⟨m.x, m.y, m.w, m.h + r.h⟩
  else ⟨m.x, r.y, m.w, m.h + r.h⟩

/-- Horizontal-merge test of step 2: same `y`, same height, and `r` is directly
to the right or directly to the left of `m`. -/
def hAdj (m r : Rect) : Bool :=
  r.y == m.y && r.h == m.h && (r.x == m.x + m.w || r.x + r.w == m.x)

/-- The horizontally merged rectangle. -/
def hFuse (m r : Rect) : Rect :=
  if r.x == m.x + m.w then ⟨m.x, m.y, m.w + r.w, m.h⟩
  else ⟨r.x, m.y, m.w + r.w, m.h⟩

/-- Scan the pool of still-unused rectangles in index order for the first one
matching `adj`, fuse it into `m` and remove it from the pool.  This is the
`for j, (x2, y2, w2, h2) in enumerate(rectangles)` scan of the Python code: the
pool is exactly the sublist of `rectangles`, in index order, of entries whose
index is neither in `used` nor equal to `i`. -/
def findAdj (adj : Rect → Rect → Bool) (fuse : Rect → Rect → Rect) (m : Rect) :
    List Rect → Option (Rect × List Rect)
  | [] => none
  | r :: rest =>
    if adj m r then some (fuse m r, rest)
    else
      match findAdj adj fuse m rest with
      | some (m', rest') => some (m', r :: rest')
      | none => none

/-- The inner `while merge_found` loop of step 2: keep absorbing a vertically
adjacent rectangle (scanned first) or else a horizontally adjacent one, until
neither exists.  Each merge removes one pool element, so `fuel := pool.length`
always suffices. -/
def growRect : Nat → Rect → List Rect → Rect × List Rect
  | 0, m, pool => (m, pool)
  | fuel + 1, m, pool =>
    match findAdj vAdj vFuse m pool with
    | some (m', pool') => growRect fuel m' pool'
    | none =>
      match findAdj hAdj hFuse m pool with
      | some (m', pool') => growRect fuel m' pool'
      | none => (m, pool)

/-- One pass of the outer `for i, ... in enumerate(rectangles)` loop: the head
of the pool is the next seed `i` not in `used`, it absorbs partners via
`growRect`, is appended to `new_rectangles` (the accumulator, reversed at the
end), and the `changed` flag records whether any merge happened.  Each step
consumes at least the pool head, so `fuel := pool.length` suffices. -/
def passAux : Nat → List Rect → List Rect → Bool → List Rect × Bool
  | _, [], acc, changed => (acc.reverse, changed)
  | 0, pool, acc, changed => (acc.reverse ++ pool, changed)
  | fuel + 1, r :: rest, acc, changed =>
    let p := growRect rest.length r rest
    passAux fuel p.2 (p.1 :: acc) (changed || decide (p.2.length < rest.length))

/-- One full pass of step 2 over the current rectangle list. -/
def mergePass (rects : List Rect) : List Rect × Bool :=
  passAux rects.length rects [] false

/-- The outer `while changed` loop of step 2.  Every changed pass strictly
shrinks the list, so `fuel := length + 1` passes always reach the fixpoint. -/
def mergeLoop : Nat → List Rect → List Rect
  | 0, rects => rects
  | fuel + 1, rects =>
    let p := mergePass rects
    if p.2 then mergeLoop fuel p.1 else p.1

/-- `bitmap_to_svg_rectangles` of `export_svg.py`: run-length seeds followed by
the iterated merge loop. -/
def bitmap_to_svg_rectangles (bm : List (List Bool)) : List Rect :=
  let seeds := seedRects bm
  mergeLoop (seeds.length + 1) seeds

/-- One `<rect .../>` line of the SVG body, as formatted by `export_svg`. -/
def rectLine (r : Rect) : String :=
  "    <rect x=\"" ++ toString r.x ++ "\" y=\"" ++ toString r.y ++
    "\" width=\"" ++ toString r.w ++ "\" height=\"" ++ toString r.h ++
    "\" fill=\"var(--foreground)\" shape-rendering=\"crispEdges\" />"

/-- `export_svg` of `export_svg.py` with its default viewBox `(0, 0, 128, 64)`. -/
def export_svg (bm : List (List Bool)) (vx : Int := 0) (vy : Int := 0)
    (vw : Int := 128) (vh : Int := 64) : String :=
  String.intercalate "\n"
    ([ "<svg viewBox=\"" ++ toString vx ++ " " ++ toString vy ++ " " ++
        toString vw ++ " " ++ toString vh ++
        "\" xmlns=\"http://www.w3.org/2000/svg\" shape-rendering=\"crispEdges\">",
       "  <g id=\"pixels\">" ] ++
      (bitmap_to_svg_rectangles bm).map rectLine ++
      [ "  </g>", "</svg>" ])

/-! ### Embedding of `shapes.py` (`hash_component`)

`hashlib.sha256(...).hexdigest()` is an external library call; it is modelled
as an explicit function parameter `sha256hex` from byte sequences to strings.
The repository logic — flattening the boolean component bitmap to a row-major
`uint8` byte sequence before hashing — is embedded exactly. -/

/-- `component_bitmap.astype(np.uint8).tobytes()`: row-major flattening of a
boolean grid into bytes `0`/`1`. -/
def toBytes (c : List (List Bool)) : List Nat :=
  (c.map fun row => row.map fun b => if b then 1 else 0).flatten

/-- `hash_component` of `shapes.py`, with the SHA-256 hex digest abstracted as
the function parameter `sha256hex`. -/
def hash_component (sha256hex : List Nat → String) (c : List (List Bool)) : String :=
  sha256hex (toBytes c)

/-! ### Embedding of `process.py` (`binarize`)

Pixel values of the normalised grayscale image are `uint8`, modelled as `Nat`.
The two `cv2.threshold` calls both binarise by `pixel > threshold`; the Otsu
call additionally computes the threshold from the image, which is an external
computation modelled by the parameter `otsuValue`.  Python's `int(threshold)`
truncates toward zero. -/

/-- Python `int(...)` truncation toward zero on a rational. -/
def ratTrunc (q : ℚ) : Int := q.num / (q.den : Int)

/-- The `overrides` argument of `binarize`: `force_on` and `force_off` pixel
coordinate lists (`(x, y)` integers, as stored in the state file). -/
structure Overrides where
  force_on : List (Int × Int)
  force_off : List (Int × Int)
  deriving Repr

/-- Write one pixel of the bitmap (`bitmap[y, x] = v`). -/
def setPx (bm : List (List Bool)) (x y : Nat) (v : Bool) : List (List Bool) :=
  bm.set y ((bm.getD y []).set x v)

/-- The range guard of the override loops of `binarize`:
`0 <= x < 128 and 0 <= y < 64`. -/
def coordInRange (c : Int × Int) : Bool :=
  decide (0 ≤ c.1 ∧ c.1 < 128 ∧ 0 ≤ c.2 ∧ c.2 < 64)

/-- One override loop of `binarize`: coordinates with `0 <= x < 128` and
`0 <= y < 64` are written, all others are silently skipped. -/
def applyForce (v : Bool) (bm : List (List Bool)) (coords : List (Int × Int)) :
    List (List Bool) :=
  coords.foldl
    (fun b c =>
      if 0 ≤ c.1 ∧ c.1 < 128 ∧ 0 ≤ c.2 ∧ c.2 < 64 then setPx b c.1.toNat c.2.toNat v
      else b)
    bm

/-- `binarize` of `process.py`: threshold (manual truncated-to-int value or
the Otsu value), then apply `force_on`, then `force_off`. -/
def binarize (image : List (List Nat)) (otsuValue : ℚ) (threshold : Option ℚ)
    (overrides : Option Overrides) : List (List Bool) :=
  let thr : ℚ :=
    match threshold with
    | none => otsuValue
    | some t => (ratTrunc t : ℚ)
  let bitmap := image.map fun row => row.map fun px => decide (thr < (px : ℚ))
  match overrides with
  | none => bitmap
  | some ov => applyForce false (applyForce true bitmap ov.force_on) ov.force_off

/-! ### Embedding of `detect.py` (`qualify_oled`)

Float quantities appear in `qualify_oled` only through order comparisons, so
they are modelled as `ℚ` (the decimal literals `0.75`, `0.4`, `0.5`, `0.3`,
`0.05`, `0.9`, `0.95`, `0.6`, `5`, `10` of the source become the
corresponding rationals).  The metrics dict is an association list with
unique keys; `detect_diagram_features(image)["diagram_confidence"]` is an
external OpenCV computation, modelled by the parameter `diagramConfidence`
(`none` when `image is None`). -/

/-- First-match lookup in a string-keyed association list (Python dict get). -/
def dlookupQ : List (String × ℚ) → String → Option ℚ
  | [], _ => none
  | (k, v) :: rest, key => if k = key then some v else dlookupQ rest key

/-- `diagram_detected` accumulation of `qualify_oled`. -/
def diagReasons (diagramConfidence : Option ℚ) (diagramThreshold : ℚ) : List String :=
  match diagramConfidence with
  | some dc => if diagramThreshold < dc then ["diagram_detected"] else []
  | none => []

/-- `low_confidence` accumulation of `qualify_oled`. -/
def confReasons (confidence threshold : ℚ) : List String :=
  if confidence < threshold then ["low_confidence"] else []

/-- `aspect_ratio` accumulation of `qualify_oled` (outer band check, else the
`aspect_score` check, with the `elif` fallback when `aspect_ratio` is absent). -/
def aspectReasons (metrics : List (String × ℚ)) : List String :=
  match dlookupQ metrics "aspect_ratio" with
  | some ar =>
    if ar < mkRat 1 2 ∨ 5 < ar then ["aspect_ratio"]
    else
      match dlookupQ metrics "aspect_score" with
      | some s => if s < mkRat 3 10 then ["aspect_ratio"] else []
      | none => []
  | none =>
    match dlookupQ metrics "aspect_score" with
    | some s => if s < mkRat 3 10 then ["aspect_ratio"] else []
    | none => []

/-- `area_too_small` / `bbox_too_large` accumulation of `qualify_oled`. -/
def areaReasons (metrics : List (String × ℚ)) : List String :=
  match dlookupQ metrics "area_fraction" with
  | some af =>
    if af < mkRat 1 20 then ["area_too_small"]
    else if mkRat 9 10 < af then ["bbox_too_large"]
    else []
  | none => []

/-- `low_rectangularity` accumulation of `qualify_oled`. -/
def rectangularityReasons (metrics : List (String × ℚ)) : List String :=
  match dlookupQ metrics "rectangularity" with
  | some r => if r < mkRat 3 5 then ["low_rectangularity"] else []
  | none => []

/-- Edge/full-image `bbox_too_large` accumulation of `qualify_oled`.  When the
bbox touches both the left and the top edge and `area_fraction > 0.95`, the
reason fires for `bbox_edge_contrast < 5`, for the Python-falsy value `0.0`,
and when the key is absent (`metrics.get` returning `None` is falsy). -/
def edgeReasons (x y : ℚ) (metrics : List (String × ℚ)) : List String :=
  if x < 10 ∧ y < 10 ∧ mkRat 19 20 < (dlookupQ metrics "area_fraction").getD 0 then
    match dlookupQ metrics "bbox_edge_contrast" with
    | some v =>
      if v < 5 then ["bbox_too_large"]
      else if v = 0 then ["bbox_too_large"]
      else []
    | none => ["bbox_too_large"]
  else []

/-- The reason list accumulated by `qualify_oled` for a present bbox, in the
exact append order of the source. -/
def qualifyReasons (b : ℚ × ℚ × ℚ × ℚ) (confidence : ℚ) (metrics : List (String × ℚ))
    (diagramConfidence : Option ℚ) (threshold diagramThreshold : ℚ) : List String :=
  diagReasons diagramConfidence diagramThreshold
    ++ confReasons confidence threshold
    ++ aspectReasons metrics
    ++ areaReasons metrics
    ++ rectangularityReasons metrics
    ++ edgeReasons b.1 b.2.1 metrics

/-- `qualify_oled` of `detect.py`.  Returns `(is_qualifying, reason_codes)`;
defaults mirror `threshold=0.75` and `diagram_threshold=0.4`. -/
def qualify_oled (bbox : Option (ℚ × ℚ × ℚ × ℚ)) (confidence : ℚ)
    (metrics : List (String × ℚ)) (diagramConfidence : Option ℚ)
    (threshold : ℚ := mkRat 3 4) (diagramThreshold : ℚ := mkRat 2 5) : Bool × List String :=
  match bbox with
  | none => (false, ["bbox_missing"])
  | some b =>
    let reasons := qualifyReasons b confidence metrics diagramConfidence threshold diagramThreshold
    let isQualifying := decide (threshold ≤ confidence) && reasons.isEmpty
    if !isQualifying && reasons.isEmpty then (isQualifying, reasons ++ ["unknown"])
    else (isQualifying, reasons)

/-! ### Embedding of `detect.py` (`detect_oled_bbox` candidate selection)

The OpenCV pipeline (Otsu, morphology, Canny, contours) produces the list of
candidate contours; each candidate is modelled by the quantities the scoring
loop derives from it (`cv2.boundingRect`, `cv2.contourArea`, `np.std` of the
grayscale ROI and its non-emptiness).  All scoring arithmetic of lines
203-288 is embedded exactly over `ℚ`; `refine_bbox` is a further OpenCV-bound
computation, abstracted as the parameter `refineFn`, returning the refined
bbox, the `refined` flag and its numeric refinement metrics. -/

/-- One contour candidate, abstracting the OpenCV-derived inputs of the
scoring loop. -/
structure Candidate where
  x : ℚ
  y : ℚ
  w : ℚ
  h : ℚ
  contourArea : ℚ
  roiStd : ℚ
  roiNonempty : Bool
  deriving Repr

/-- The `common_sizes` table of `detect_oled_bbox`. -/
def commonSizes : List (ℚ × ℚ) :=
  [(500, 250), (100, 100), (540, 280), (550, 280), (530, 280), (497, 250)]

def aspectRatioOf (c : Candidate) : ℚ :=
  if 0 < c.h then c.w / c.h else 0

def aspectScoreOf (c : Candidate) : ℚ :=
  let ar := aspectRatioOf c
  if ar < mkRat 7 10 ∨ 4 < ar then 0
  else max 0 (1 - |ar - mkRat 39 20| / mkRat 3 2)

def areaPenaltyOf (totalArea : ℚ) (c : Candidate) : ℚ :=
  let af := c.w * c.h / totalArea
  if mkRat 9 10 < af then mkRat 2 5
  else if mkRat 17 20 < af then mkRat 7 10
  else 1

def sizeScoreOf (c : Candidate) : ℚ :=
  if commonSizes.any (fun p =>
      decide (|c.w - p.1| / max p.1 1 < mkRat 1 10) && decide (|c.h - p.2| / max p.2 1 < mkRat 1 10))
  then mkRat 3 20 else 0

def contrastScoreOf (c : Candidate) : ℚ :=
  if c.roiNonempty then min (c.roiStd / 50) 1 else 0

def positionScoreOf (c : Candidate) : ℚ :=
  max 0 (1 - min c.x c.y / 30)

def rectangularityOf (c : Candidate) : ℚ :=
  if 0 < c.w * c.h then c.contourArea / (c.w * c.h) else 0

/-- The combined confidence score of one candidate (lines 264-272). -/
def confidenceOf (totalArea : ℚ) (c : Candidate) : ℚ :=
  (aspectScoreOf c * mkRat 3 10
    + min (c.w * c.h / totalArea) (mkRat 1 2) * 2 * mkRat 1 5 * areaPenaltyOf totalArea c
    + rectangularityOf c * mkRat 1 5
    + contrastScoreOf c * mkRat 3 20
    + positionScoreOf c * mkRat 3 20
    + sizeScoreOf c) * areaPenaltyOf totalArea c

/-- The `best_metrics` dict recorded for the winning candidate. -/
def metricsOf (totalArea : ℚ) (c : Candidate) : List (String × ℚ) :=
  [("aspect_ratio", aspectRatioOf c),
   ("aspect_score", aspectScoreOf c),
   ("area_fraction", c.w * c.h / totalArea),
   ("rectangularity", rectangularityOf c),
   ("contrast_score", contrastScoreOf c),
   ("position_score", positionScoreOf c),
   ("size_score", sizeScoreOf c)]

/-- One iteration of the candidate-selection loop: skip a candidate failing
the minimum-area filter, otherwise keep it when its confidence strictly beats
the best so far. -/
def selectStep (totalArea minFrac : ℚ)
    (best : Option (ℚ × ℚ × ℚ × ℚ) × ℚ × List (String × ℚ)) (c : Candidate) :
    Option (ℚ × ℚ × ℚ × ℚ) × ℚ × List (String × ℚ) :=
  if c.w * c.h < totalArea * minFrac then best
  else
    let conf := confidenceOf totalArea c
    if best.2.1 < conf then (some (c.x, c.y, c.w, c.h), conf, metricsOf totalArea c)
    else best

/-- The candidate-selection loop, starting from `(None, 0.0, {})`. -/
def selectBest (totalArea minFrac : ℚ) (cands : List Candidate) :
    Option (ℚ × ℚ × ℚ × ℚ) × ℚ × List (String × ℚ) :=
  cands.foldl (selectStep totalArea minFrac) (none, 0, [])

/-- In-place dict write for rational metric dicts. -/
def dinsertQ : List (String × ℚ) → String → ℚ → List (String × ℚ)
  | [], k, v => [(k, v)]
  | (k', v') :: rest, k, v =>
    if k' = k then (k, v) :: rest else (k', v') :: dinsertQ rest k v

/-- Python `dict.update` for rational metric dicts. -/
def dupdateQ (d u : List (String × ℚ)) : List (String × ℚ) :=
  u.foldl (fun acc p => dinsertQ acc p.1 p.2) d

/-- `detect_oled_bbox` around the selection loop: the empty-contour early
return, the no-survivor return, and the refinement step on the winner (with
`refine_bbox` abstracted as `refineFn`; its non-numeric metric entries
`refined`/`reason` are carried as the Bool flag). -/
def detect_oled_bbox (totalArea minFrac : ℚ) (cands : List Candidate)
    (refineFn : (ℚ × ℚ × ℚ × ℚ) → (ℚ × ℚ × ℚ × ℚ) × Bool × List (String × ℚ)) :
    Option (ℚ × ℚ × ℚ × ℚ) × ℚ × List (String × ℚ) :=
  if cands.isEmpty then (none, 0, [("bbox_missing", 1)])
  else
    match selectBest totalArea minFrac cands with
    | (none, _, _) => (none, 0, [("bbox_missing", 1)])
    | (some b, score, ms) =>
      let r := refineFn b
      if r.2.1 then
        let ms1 := dupdateQ ms r.2.2
        let ms2 := dinsertQ ms1 "area_fraction" (r.1.2.2.1 * r.1.2.2.2 / totalArea)
        let ms3 := dinsertQ ms2 "aspect_ratio"
          (if 0 < r.1.2.2.2 then r.1.2.2.1 / r.1.2.2.2 else 0)
        (some r.1, score, ms3)
      else (some b, score, ms)

/-! ### A JSON value model for item states (`state.py`, `server.py`)

Item states are JSON documents; they are modelled as association lists of
string keys to `Val` values with Python-dict semantics (insertion order kept,
writes replace in place, unique keys).  A Python exception (`HTTPException`,
`AttributeError`, `TypeError`) is modelled as `none`. -/

/-- A JSON-like value. -/
inductive Val where
  | vnull : Val
  | vbool : Bool → Val
  | vnum : ℚ → Val
  | vstr : String → Val
  | vlist : List Val → Val
  | vdict : List (String × Val) → Val

/-- Python `dict.get(k)`: first (only, for unique keys) match. -/
def dlookup : List (String × Val) → String → Option Val
  | [], _ => none
  | (k, v) :: rest, key => if k = key then some v else dlookup rest key

/-- Python `k in d`. -/
def dhas (d : List (String × Val)) (k : String) : Bool :=
  d.any fun p => p.1 == k

/-- Python `d[k] = v`: replace in place when present, else append. -/
def dinsert : List (String × Val) → String → Val → List (String × Val)
  | [], k, v => [(k, v)]
  | (k', v') :: rest, k, v =>
    if k' = k then (k, v) :: rest else (k', v') :: dinsert rest k v

/-- Python `d.update(u)`: apply `u`'s writes in order. -/
def dupdate (d u : List (String × Val)) : List (String × Val) :=
  u.foldl (fun acc p => dinsert acc p.1 p.2) d

/-- Python `d.pop(k, None)`. -/
def dremove (d : List (String × Val)) (k : String) : List (String × Val) :=
  d.filter fun p => p.1 != k

/-- The update loop of `update_item_state`: `overrides` and `flags` values
that are dicts are shallow-merged into the existing dict (created empty when
absent; a non-dict existing value raises `AttributeError`, modelled `none`);
every other key-value pair overwrites. -/
def applyUpdates : List (String × Val) → List (String × Val) → Option (List (String × Val))
  | acc, [] => some acc
  | acc, (k, v) :: rest =>
    if k = "overrides" ∨ k = "flags" then
      match v with
      | Val.vdict m =>
        match dlookup acc k with
        | some (Val.vdict c) => applyUpdates (dinsert acc k (Val.vdict (dupdate c m))) rest
        | some _ => none
        | none => applyUpdates (dinsert acc k (Val.vdict (dupdate [] m))) rest
      | _ => applyUpdates (dinsert acc k v) rest
    else applyUpdates (dinsert acc k v) rest

/-- `update_item_state` of `state.py`: copy, refresh `updated_at` to the
current time `now`, then apply the updates. -/
def update_item_state (item : List (String × Val)) (now : String)
    (updates : List (String × Val)) : Option (List (String × Val)) :=
  applyUpdates (dinsert item "updated_at" (Val.vstr now)) updates

/-- The `manual_status` path of the state-update endpoint of `server.py`
(lines 221-256) when only `manual_status` is supplied: ensure `flags` exists,
clear or validate-and-set `flags["manual_status"]` (an invalid value is a 400,
modelled `none`), then call `update_item_state` with the flags copy as the
only update. -/
def update_manual_status (s : List (String × Val)) (ms now : String) :
    Option (List (String × Val)) :=
  match dlookup s "flags" with
  | some (Val.vdict f) =>
    match (if ms = "" then some (dremove f "manual_status")
           else if ms = "ok" ∨ ms = "needs_review" ∨ ms = "rejected" then
             some (dinsert f "manual_status" (Val.vstr ms))
           else none) with
    | some f2 => update_item_state (dinsert s "flags" (Val.vdict f2)) now [("flags", Val.vdict f2)]
    | none => none
  | none =>
    match (if ms = "" then some (dremove [] "manual_status")
           else if ms = "ok" ∨ ms = "needs_review" ∨ ms = "rejected" then
             some (dinsert [] "manual_status" (Val.vstr ms))
           else none) with
    | some f2 => update_item_state (dinsert s "flags" (Val.vdict f2)) now [("flags", Val.vdict f2)]
    | none => none
  | some _ => none

/-! ### The pure data flow of `rerun_item` (`server.py`)

The OpenCV/filesystem-bound steps of `rerun_item` are modelled as the fields
of `RerunEnv`, each a function of the item's source path (and, for
normalisation, of the bbox in use).  All state reads, the bbox branch
arithmetic, qualification, thresholding, binarisation, SVG generation and the
shape-hash delta are embedded.  Any `HTTPException` path is `none`. -/

structure RerunEnv where
  sourceExists : String → Bool
  imageOk : String → Bool
  imageHW : String → ℚ × ℚ
  detect : String → Option (ℚ × ℚ × ℚ × ℚ) × ℚ × List (String × ℚ)
  diagramConfidence : String → ℚ
  normalized : String → (ℚ × ℚ × ℚ × ℚ) → List (List Nat)
  otsu : List (List Nat) → ℚ
  components : List (List Bool) → List (List (List Bool))
  sha256hex : List Nat → String

/-- Read `oled_bbox` from the state: a four-number list is used as the bbox
(`some (some b)`), a missing value, `null`, or a list of another length falls
through to detection (`some none`), anything else crashes downstream
(`none`). -/
def readStateBBox : Option Val → Option (Option (ℚ × ℚ × ℚ × ℚ))
  | some (Val.vlist [Val.vnum a, Val.vnum b, Val.vnum c, Val.vnum d]) => some (some (a, b, c, d))
  | some (Val.vlist l) => if l.length = 4 then none else some none
  | some Val.vnull => some none
  | none => some none
  | some _ => none

/-- The confidence and metrics computed for a state-supplied bbox
(`server.py` lines 303-320): target aspect `128/64 = 2`, assumed
rectangularity `0.8`, weights `0.4 / 0.3 / 0.3`. -/
def stateBBoxMetrics (totalArea w h : ℚ) : ℚ × List (String × ℚ) :=
  let ar := if 0 < h then w / h else 0
  let ascore := 1 - min (|ar - 2| / 2) 1
  let af := if 0 < totalArea then w * h / totalArea else 0
  (ascore * mkRat 2 5 + min af (mkRat 1 2) * 2 * mkRat 3 10 + mkRat 4 5 * mkRat 3 10,
   [("aspect_ratio", ar), ("aspect_score", ascore), ("area_fraction", af),
    ("rectangularity", mkRat 4 5)])

/-- Read `normalize_params.otsu_threshold`: `some none` means compute Otsu,
`some (some t)` is a stored manual threshold, `none` a downstream crash. -/
def readThreshold : Option Val → Option (Option ℚ)
  | none => some none
  | some (Val.vdict np) =>
    match dlookup np "otsu_threshold" with
    | none => some none
    | some Val.vnull => some none
    | some (Val.vnum t) => some (some t)
    | some _ => none
  | some _ => none

/-- A JSON `[x, y]` coordinate with integral entries. -/
def coordOfVal : Val → Option (Int × Int)
  | Val.vlist [Val.vnum a, Val.vnum b] =>
    if a.den = 1 ∧ b.den = 1 then some (a.num, b.num) else none
  | _ => none

def coordsOfVal : Val → Option (List (Int × Int))
  | Val.vlist l => l.mapM coordOfVal
  | _ => none

/-- Read the `overrides` field: a missing field or a dict with neither
coordinate list becomes the Python-falsy empty dict (`binarize` receives
`None`), well-formed coordinate lists are converted, anything else crashes. -/
def readOverrides : Option Val → Option (Option Overrides)
  | none => some none
  | some (Val.vdict od) =>
    match dlookup od "force_on", dlookup od "force_off" with
    | none, none => some none
    | onv, offv =>
      match (match onv with | none => some [] | some v => coordsOfVal v),
          (match offv with | none => some [] | some v => coordsOfVal v) with
      | some a, some b => some (some ⟨a, b⟩)
      | _, _ => none
  | some _ => none

/-- The outputs of `rerun_item` that C5 is about: the recomputed
qualification, the binarised bitmap with its SVG artifact (the preview PNG is
the bitmap itself), and the shape hashes added to the ShapeLibrary. -/
structure RerunOut where
  is_qualifying : Bool
  reason_codes : List String
  bitmap : List (List Bool)
  svg : String
  shapeHashes : List String

/-- The visible pipeline of `rerun_item` as a function of the four state
fields it reads. -/
def rerunCore (env : RerunEnv) (spv bbv npv ovv : Option Val) : Option RerunOut :=
  match spv with
  | some (Val.vstr sp) =>
    if sp = "" then none
    else if env.sourceExists sp = false then none
    else if env.imageOk sp = false then none
    else
      match readStateBBox bbv with
      | none => none
      | some sb =>
        match (match sb with
          | some (x, y, w, h) =>
            let hw := env.imageHW sp
            if w ≤ 0 ∨ h ≤ 0 then none
            else if x < 0 ∨ y < 0 ∨ hw.2 < x + w ∨ hw.1 < y + h then none
            else
              let cm := stateBBoxMetrics (hw.1 * hw.2) w h
              some ((x, y, w, h), cm.1, cm.2)
          | none =>
            match env.detect sp with
            | (none, _, _) => none
            | (some b, conf, ms) => some (b, conf, ms)) with
        | none => none
        | some (bbox, conf, ms) =>
          let q := qualify_oled (some bbox) conf ms (some (env.diagramConfidence sp))
          let normalizedImage := env.normalized sp bbox
          match readThreshold npv with
          | none => none
          | some thrOpt =>
            let thr : ℚ :=
              match thrOpt with
              | some t => t
              | none => env.otsu normalizedImage
            match readOverrides ovv with
            | none => none
            | some ovs =>
              let bitmap := binarize normalizedImage 0 (some thr) ovs
              if bitmap.length = 64 ∧ ∀ row ∈ bitmap, row.length = 128 then
                some ⟨q.1, q.2, bitmap, export_svg bitmap,
                  if q.1 then (env.components bitmap).map (hash_component env.sha256hex)
                  else []⟩
              else none
  | _ => none

/-- The visible `rerun_item` outputs from an item state: the pipeline applied
to the four fields `rerun_item` reads (`source_path`, `oled_bbox`,
`normalize_params`, `overrides`). -/
def rerunVisible (env : RerunEnv) (s : List (String × Val)) : Option RerunOut :=
  rerunCore env (dlookup s "source_path") (dlookup s "oled_bbox")
    (dlookup s "normalize_params") (dlookup s "overrides")

/-- Well-formedness of an update against a state: any dict-valued
`overrides`/`flags` update meets an absent or dict-valued existing field
(otherwise Python raises `AttributeError`). -/
def UpdOk (updates acc : List (String × Val)) : Prop :=
  ∀ k m, (k = "overrides" ∨ k = "flags") → dlookup updates k = some (Val.vdict m) →
    (dlookup acc k = none ∨ ∃ c, dlookup acc k = some (Val.vdict c))

/-- The merge contract of the update loop: untouched keys keep their value,
scalar keys are overwritten, dict-valued `overrides`/`flags` are
shallow-merged (into the empty dict when absent). -/
def UpdSpec (updates acc r : List (String × Val)) : Prop :=
  (∀ k, dhas updates k = false → dlookup r k = dlookup acc k)
  ∧ (∀ k v, dlookup updates k = some v → k ≠ "overrides" → k ≠ "flags" →
      dlookup r k = some v)
  ∧ (∀ k m c, (k = "overrides" ∨ k = "flags") → dlookup updates k = some (Val.vdict m) →
      dlookup acc k = some (Val.vdict c) → dlookup r k = some (Val.vdict (dupdate c m)))
  ∧ (∀ k m, (k = "overrides" ∨ k = "flags") → dlookup updates k = some (Val.vdict m) →
      dlookup acc k = none → dlookup r k = some (Val.vdict (dupdate [] m)))

/-! ### Theorems and helper lemmas -/

/-- Rectangles whose x-spans are separated are disjoint. -/
theorem rectDisjoint_of_sep_x {a b : Rect} (h : a.x + a.w ≤ b.x) : rectDisjoint a b := by
  intro px py ha hb
  rcases ha with ⟨h1, h2, _, _⟩
  rcases hb with ⟨h3, _, _, _⟩
  omega

/-- Rectangles whose y-spans are separated are disjoint. -/
theorem rectDisjoint_of_sep_y {a b : Rect} (h : a.y + a.h ≤ b.y) : rectDisjoint a b := by
  intro px py ha hb
  rcases ha with ⟨_, _, h1, h2⟩
  rcases hb with ⟨_, _, h3, _⟩
  omega

/-- Joint characterisation of the pixels covered by the runs that `scanRow`
emits, for the closed state and for an open run `(s, n)` with `s + n = x`. -/
theorem scanRow_mem_aux (row : List Bool) : ∀ (x p : Nat),
    ((∃ q ∈ scanRow row x none, q.1 ≤ p ∧ p < q.1 + q.2) ↔
      (x ≤ p ∧ p - x < row.length ∧ row.getD (p - x) false = true))
    ∧ ∀ s n, s + n = x →
      ((∃ q ∈ scanRow row x (some (s, n)), q.1 ≤ p ∧ p < q.1 + q.2) ↔
        ((s ≤ p ∧ p < x) ∨ (x ≤ p ∧ p - x < row.length ∧ row.getD (p - x) false = true))) := by
  induction row with
  | nil =>
    intro x p
    constructor
    · simp [scanRow]
    · intro s n hsn
      simp [scanRow]
      omega
  | cons b rest ih =>
    intro x p
    cases b with
    | true =>
      constructor
      · rw [show scanRow (true :: rest) x none = scanRow rest (x + 1) (some (x, 1)) from rfl]
        rw [(ih (x + 1) p).2 x 1 rfl]
        rcases Nat.lt_or_ge p (x + 1) with hp | hp
        · rcases Nat.lt_or_ge p x with hp2 | hp2
          · simp only [List.length_cons]
            constructor
            · intro h; omega
            · intro h; omega
          · have hpx : p = x := by omega
            subst hpx
            simp [List.getD_cons_zero, Nat.sub_self]
        · have hk : p - x = (p - (x + 1)) + 1 := by omega
          rw [hk, List.getD_cons_succ]
          simp only [List.length_cons]
          constructor
          · intro h; rcases h with h | h
            · omega
            · exact ⟨by omega, by omega, h.2.2⟩
          · intro h; right; exact ⟨by omega, by omega, h.2.2⟩
      · intro s n hsn
        rw [show scanRow (true :: rest) x (some (s, n)) = scanRow rest (x + 1) (some (s, n + 1)) from rfl]
        rw [(ih (x + 1) p).2 s (n + 1) (by omega)]
        rcases Nat.lt_or_ge p (x + 1) with hp | hp
        · rcases Nat.lt_or_ge p x with hp2 | hp2
          · simp only [List.length_cons]
            constructor
            · intro h; left; omega
            · intro h; omega
          · have hpx : p = x := by omega
            subst hpx
            simp only [List.length_cons, Nat.sub_self, List.getD_cons_zero]
            constructor
            · intro _; right; exact ⟨Nat.le_refl _, by omega, by trivial⟩
            · intro _; left; omega
        · have hk : p - x = (p - (x + 1)) + 1 := by omega
          rw [hk, List.getD_cons_succ]
          simp only [List.length_cons]
          constructor
          · intro h; rcases h with h | h
            · omega
            · right; exact ⟨by omega, by omega, h.2.2⟩
          · intro h; rcases h with h | h
            · omega
            · right; exact ⟨by omega, by omega, h.2.2⟩
    | false =>
      constructor
      · rw [show scanRow (false :: rest) x none = scanRow rest (x + 1) none from rfl]
        rw [(ih (x + 1) p).1]
        rcases Nat.lt_or_ge p (x + 1) with hp | hp
        · rcases Nat.lt_or_ge p x with hp2 | hp2
          · simp only [List.length_cons]
            constructor
            · intro h; omega
            · intro h; omega
          · have hpx : p = x := by omega
            subst hpx
            simp [List.getD_cons_zero, Nat.sub_self]
        · have hk : p - x = (p - (x + 1)) + 1 := by omega
          rw [hk, List.getD_cons_succ]
          simp only [List.length_cons]
          constructor
          · intro h; exact ⟨by omega, by omega, h.2.2⟩
          · intro h; exact ⟨by omega, by omega, h.2.2⟩
      · intro s n hsn
        rw [show scanRow (false :: rest) x (some (s, n)) = (s, n) :: scanRow rest (x + 1) none from rfl]
        simp only [List.mem_cons, exists_eq_or_imp]
        rw [(ih (x + 1) p).1]
        rcases Nat.lt_or_ge p (x + 1) with hp | hp
        · rcases Nat.lt_or_ge p x with hp2 | hp2
          · simp only [List.length_cons]
            constructor
            · intro h; rcases h with h | h
              · left; omega
              · omega
            · intro h; rcases h with h | h
              · left; omega
              · omega
          · have hpx : p = x := by omega
            subst hpx
            simp only [List.length_cons, Nat.sub_self, List.getD_cons_zero]
            constructor
            · intro h; rcases h with h | h
              · omega
              · omega
            · intro h; rcases h with h | h
              · omega
              · simp at h
        · have hk : p - x = (p - (x + 1)) + 1 := by omega
          rw [hk, List.getD_cons_succ]
          simp only [List.length_cons]
          constructor
          · intro h; rcases h with h | h
            · omega
            · right; exact ⟨by omega, by omega, h.2.2⟩
          · intro h; rcases h with h | h
            · omega
            · right; exact ⟨by omega, by omega, h.2.2⟩

/-- The runs emitted by `scanRow` are ordered with separated x-spans, and all
start at or after the scan origin (the open run's start for an open state). -/
theorem scanRow_sep_aux (row : List Bool) : ∀ (x : Nat),
    ((scanRow row x none).Pairwise (fun a b => a.1 + a.2 ≤ b.1)
      ∧ ∀ q ∈ scanRow row x none, x ≤ q.1)
    ∧ ∀ s n, s + n = x →
      ((scanRow row x (some (s, n))).Pairwise (fun a b => a.1 + a.2 ≤ b.1)
        ∧ ∀ q ∈ scanRow row x (some (s, n)), s ≤ q.1) := by
  induction row with
  | nil =>
    intro x
    refine ⟨⟨by simp [scanRow], by simp [scanRow]⟩, ?_⟩
    intro s n hsn
    simp [scanRow]
  | cons b rest ih =>
    intro x
    cases b with
    | true =>
      constructor
      · rw [show scanRow (true :: rest) x none = scanRow rest (x + 1) (some (x, 1)) from rfl]
        exact ((ih (x + 1)).2 x 1 rfl)
      · intro s n hsn
        rw [show scanRow (true :: rest) x (some (s, n)) = scanRow rest (x + 1) (some (s, n + 1)) from rfl]
        exact ((ih (x + 1)).2 s (n + 1) (by omega))
    | false =>
      constructor
      · rw [show scanRow (false :: rest) x none = scanRow rest (x + 1) none from rfl]
        refine ⟨(ih (x + 1)).1.1, ?_⟩
        intro q hq
        exact Nat.le_of_succ_le ((ih (x + 1)).1.2 q hq)
      · intro s n hsn
        rw [show scanRow (false :: rest) x (some (s, n)) = (s, n) :: scanRow rest (x + 1) none from rfl]
        constructor
        · refine List.Pairwise.cons ?_ (ih (x + 1)).1.1
          intro q hq
          have := (ih (x + 1)).1.2 q hq
          simp only
          omega
        · intro q hq
          rcases List.mem_cons.mp hq with h | h
          · subst h; exact Nat.le_refl _
          · have := (ih (x + 1)).1.2 q h
            omega

/-- Every seed rectangle of a row sits on that row with height 1. -/
theorem rowRects_shape {y : Nat} {row : List Bool} {r : Rect}
    (h : r ∈ rowRects y row) : r.y = y ∧ r.h = 1 := by
  rcases List.mem_map.mp h with ⟨q, _, rfl⟩
  exact ⟨rfl, rfl⟩

/-- Coverage of the seed rectangles of a single row. -/
theorem rowRects_cover (y : Nat) (row : List Bool) (px py : Nat) :
    unionMem (rowRects y row) px py ↔
      (py = y ∧ px < row.length ∧ row.getD px false = true) := by
  unfold unionMem rowRects
  constructor
  · rintro ⟨r, hr, hin⟩
    rcases List.mem_map.mp hr with ⟨q, hq, rfl⟩
    rcases hin with ⟨h1, h2, h3, h4⟩
    have hmem : ∃ q' ∈ scanRow row 0 none, q'.1 ≤ px ∧ px < q'.1 + q'.2 :=
      ⟨q, hq, h1, h2⟩
    have := (scanRow_mem_aux row 0 px).1.mp hmem
    simp only [Nat.sub_zero] at this
    have h3' : y ≤ py := h3
    have h4' : py < y + 1 := h4
    exact ⟨by omega, this.2.1, this.2.2⟩
  · rintro ⟨hpy, hlen, hget⟩
    have hmem := (scanRow_mem_aux row 0 px).1.mpr ⟨Nat.zero_le _, by simpa using hlen, by simpa using hget⟩
    rcases hmem with ⟨q, hq, h1, h2⟩
    exact ⟨⟨q.1, y, q.2, 1⟩, List.mem_map.mpr ⟨q, hq, rfl⟩, h1, h2,
      le_of_eq hpy.symm, by simp [hpy]⟩

/-- The seed rectangles of a single row are pairwise disjoint. -/
theorem rowRects_pairwise (y : Nat) (row : List Bool) :
    (rowRects y row).Pairwise rectDisjoint := by
  unfold rowRects
  rw [List.pairwise_map]
  refine List.Pairwise.imp ?_ (scanRow_sep_aux row 0).1.1
  intro a b hab
  exact rectDisjoint_of_sep_x (by simpa using hab)

/-- Indices in an `enumFrom` are strictly increasing. -/
theorem pairwise_fst_lt_enumFrom {α : Type} (l : List α) :
    ∀ n : Nat, (List.enumFrom n l).Pairwise (fun a b => a.1 < b.1) := by
  induction l with
  | nil => intro n; simp
  | cons a rest ih =>
    intro n
    rw [show List.enumFrom n (a :: rest) = (n, a) :: List.enumFrom (n + 1) rest from rfl]
    refine List.Pairwise.cons ?_ (ih (n + 1))
    intro q hq
    have := List.le_fst_of_mem_enumFrom hq
    simpa using this

/-- Coverage of the full seed list: a pixel is covered by some seed rectangle
exactly when it is a `true` pixel of the bitmap. -/
theorem seedRects_cover (bm : List (List Bool)) (px py : Nat) :
    unionMem (seedRects bm) px py ↔ bmGet bm px py = true := by
  unfold seedRects
  constructor
  · rintro ⟨r, hr, hin⟩
    rcases List.mem_flatten.mp hr with ⟨l, hl, hrl⟩
    rcases List.mem_map.mp hl with ⟨p, hp, rfl⟩
    have hcov := (rowRects_cover p.1 p.2 px py).mp ⟨r, hrl, hin⟩
    have hgp : bm[p.1]? = some p.2 := List.mem_enum_iff_getElem?.mp hp
    rcases hcov with ⟨hpy, hlen, hget⟩
    unfold bmGet
    rw [show bm.getD py [] = (bm[py]?).getD [] from List.getD_eq_getElem?_getD bm py [],
      hpy, hgp]
    simpa using hget
  · intro hget
    unfold bmGet at hget
    rw [show bm.getD py [] = (bm[py]?).getD [] from List.getD_eq_getElem?_getD bm py []] at hget
    rcases hrow : bm[py]? with _ | row
    · rw [hrow] at hget
      simp at hget
    · rw [hrow] at hget
      simp only [Option.getD_some] at hget
      have hlen : px < row.length := by
        by_contra hc
        rw [List.getD_eq_getElem?_getD, List.getElem?_eq_none (by omega)] at hget
        simp at hget
      have hcov := (rowRects_cover py row px py).mpr ⟨rfl, hlen, hget⟩
      rcases hcov with ⟨r, hr, hin⟩
      refine ⟨r, ?_, hin⟩
      refine List.mem_flatten.mpr ⟨rowRects py row, ?_, hr⟩
      refine List.mem_map.mpr ⟨(py, row), ?_, rfl⟩
      exact List.mem_enum_iff_getElem?.mpr hrow

/-- The full seed list is pairwise disjoint. -/
theorem seedRects_pairwise (bm : List (List Bool)) :
    (seedRects bm).Pairwise rectDisjoint := by
  unfold seedRects
  rw [List.pairwise_flatten]
  refine ⟨?_, ?_⟩
  · intro l hl
    rcases List.mem_map.mp hl with ⟨p, _, rfl⟩
    exact rowRects_pairwise p.1 p.2
  · rw [List.pairwise_map]
    refine List.Pairwise.imp ?_ (pairwise_fst_lt_enumFrom bm 0)
    intro p1 p2 hlt a ha b hb
    have s1 := rowRects_shape ha
    have s2 := rowRects_shape hb
    exact rectDisjoint_of_sep_y (by omega)

/-- `rectDisjoint` is symmetric. -/
theorem rectDisjoint_symm {a b : Rect} (h : rectDisjoint a b) : rectDisjoint b a := by
  intro px py hb ha
  exact h px py ha hb

theorem unionMem_cons (a : Rect) (l : List Rect) (px py : Nat) :
    unionMem (a :: l) px py ↔ (inRect a px py ∨ unionMem l px py) := by
  simp [unionMem]

theorem unionMem_append (l1 l2 : List Rect) (px py : Nat) :
    unionMem (l1 ++ l2) px py ↔ (unionMem l1 px py ∨ unionMem l2 px py) := by
  simp only [unionMem, List.mem_append, or_and_right, exists_or]

theorem unionMem_reverse (l : List Rect) (px py : Nat) :
    unionMem l.reverse px py ↔ unionMem l px py := by
  simp [unionMem]

/-- A pixel lies in a vertically fused rectangle exactly when it lies in one of
the two merged parts. -/
theorem vFuse_mem {m r : Rect} (h : vAdj m r = true) (px py : Nat) :
    inRect (vFuse m r) px py ↔ (inRect m px py ∨ inRect r px py) := by
  simp only [vAdj, Bool.and_eq_true, Bool.or_eq_true, beq_iff_eq] at h
  rcases h with ⟨⟨hx, hw⟩, hadj⟩
  unfold vFuse
  by_cases hc : r.y = m.y + m.h
  · rw [if_pos (by simpa using hc)]
    unfold inRect
    simp only
    omega
  · have hy : r.y + r.h = m.y := by
      rcases hadj with h | h
      · exact absurd h hc
      · exact h
    rw [if_neg (by simpa using hc)]
    unfold inRect
    simp only
    omega

/-- A pixel lies in a horizontally fused rectangle exactly when it lies in one
of the two merged parts. -/
theorem hFuse_mem {m r : Rect} (h : hAdj m r = true) (px py : Nat) :
    inRect (hFuse m r) px py ↔ (inRect m px py ∨ inRect r px py) := by
  simp only [hAdj, Bool.and_eq_true, Bool.or_eq_true, beq_iff_eq] at h
  rcases h with ⟨⟨hy, hh⟩, hadj⟩
  unfold hFuse
  by_cases hc : r.x = m.x + m.w
  · rw [if_pos (by simpa using hc)]
    unfold inRect
    simp only
    omega
  · have hx : r.x + r.w = m.x := by
      rcases hadj with h | h
      · exact absurd h hc
      · exact h
    rw [if_neg (by simpa using hc)]
    unfold inRect
    simp only
    omega

/-- A successful `findAdj` removes exactly one pool element — the first match
in pool order — and returns its fusion with `m`. -/
theorem findAdj_eq {adj : Rect → Rect → Bool} {fuse : Rect → Rect → Rect}
    {m m' : Rect} {pool pool' : List Rect}
    (h : findAdj adj fuse m pool = some (m', pool')) :
    ∃ r l₁ l₂, pool = l₁ ++ r :: l₂ ∧ pool' = l₁ ++ l₂ ∧
      adj m r = true ∧ m' = fuse m r := by
  induction pool generalizing m' pool' with
  | nil => simp [findAdj] at h
  | cons a rest ih =>
    unfold findAdj at h
    by_cases hadj : adj m a
    · rw [if_pos hadj] at h
      rcases Option.some.injEq _ _ ▸ h with h'
      have h1 : m' = fuse m a := by
        have := congrArg Prod.fst (Option.some.inj h)
        exact this.symm
      have h2 : pool' = rest := by
        have := congrArg Prod.snd (Option.some.inj h)
        exact this.symm
      exact ⟨a, [], rest, by simp, by simp [h2], hadj, h1⟩
    · rw [if_neg hadj] at h
      rcases hrec : findAdj adj fuse m rest with _ | p
      · rw [hrec] at h
        simp at h
      · rw [hrec] at h
        rcases p with ⟨m1, rest1⟩
        have h1 : m' = m1 := by
          have := congrArg Prod.fst (Option.some.inj h)
          exact this.symm
        have h2 : pool' = a :: rest1 := by
          have := congrArg Prod.snd (Option.some.inj h)
          exact this.symm
        rcases ih hrec with ⟨r, l₁, l₂, hsplit, hrem, hadj', hfuse⟩
        refine ⟨r, a :: l₁, l₂, by simp [hsplit], by simp [hrem, h2], hadj', h1 ▸ hfuse⟩

/-- In a pairwise-disjoint pool, the removed element is disjoint from every
remaining one. -/
theorem pairwise_split_disj {pool l₁ l₂ : List Rect} {r : Rect}
    (hp : pool.Pairwise rectDisjoint) (hsplit : pool = l₁ ++ r :: l₂) :
    ∀ q ∈ l₁ ++ l₂, rectDisjoint r q := by
  subst hsplit
  rw [List.pairwise_append] at hp
  rcases hp with ⟨h1, h2, h12⟩
  rw [List.pairwise_cons] at h2
  intro q hq
  rcases List.mem_append.mp hq with hq | hq
  · exact rectDisjoint_symm (h12 q hq r (List.mem_cons_self _ _))
  · exact h2.1 q hq

/-- A rectangle disjoint from everything covering a superset of `l1`'s pixels
is disjoint from everything in `l1`. -/
theorem disjAll_of_cover {e : Rect} {l1 l2 : List Rect}
    (hcov : ∀ px py, unionMem l1 px py → unionMem l2 px py)
    (hd : ∀ q ∈ l2, rectDisjoint e q) : ∀ q ∈ l1, rectDisjoint e q := by
  intro q hq px py he hqp
  rcases hcov px py ⟨q, hq, hqp⟩ with ⟨q', hq', hq'p⟩
  exact hd q' hq' px py he hq'p

/-- Core invariant of the inner merge loop: `growRect` preserves the covered
pixel set and pairwise disjointness, only removes pool elements, and is the
identity when it removes nothing. -/
theorem growRect_spec : ∀ (fuel : Nat) (m : Rect) (pool : List Rect),
    (∀ px py, unionMem ((growRect fuel m pool).1 :: (growRect fuel m pool).2) px py ↔
      unionMem (m :: pool) px py)
    ∧ ((m :: pool).Pairwise rectDisjoint →
      ((growRect fuel m pool).1 :: (growRect fuel m pool).2).Pairwise rectDisjoint)
    ∧ List.Sublist (growRect fuel m pool).2 pool
    ∧ ((growRect fuel m pool).2.length = pool.length → growRect fuel m pool = (m, pool)) := by
  intro fuel
  induction fuel with
  | zero =>
    intro m pool
    exact ⟨fun px py => Iff.rfl, fun h => h, List.Sublist.refl _, fun _ => rfl⟩
  | succ fuel ih =>
    intro m pool
    rcases hv : findAdj vAdj vFuse m pool with _ | p1
    · rcases hh : findAdj hAdj hFuse m pool with _ | p1
      · have hg : growRect (fuel + 1) m pool = (m, pool) := by
          simp only [growRect, hv, hh]
        rw [hg]
        exact ⟨fun px py => Iff.rfl, fun h => h, List.Sublist.refl _, fun _ => rfl⟩
      · rcases p1 with ⟨m1, pool1⟩
        have hg : growRect (fuel + 1) m pool = growRect fuel m1 pool1 := by
          simp only [growRect, hv, hh]
        rcases findAdj_eq hh with ⟨r, l₁, l₂, hsplit, hrem, hadj, hfuse⟩
        have hmem : ∀ px py, inRect m1 px py ↔ (inRect m px py ∨ inRect r px py) :=
          fun px py => hfuse ▸ hFuse_mem hadj px py
        have hcov1 : ∀ px py, unionMem (m1 :: pool1) px py ↔ unionMem (m :: pool) px py := by
          intro px py
          rw [hsplit, hrem, unionMem_cons, unionMem_cons, unionMem_append, unionMem_append,
            unionMem_cons, hmem px py]
          tauto
        have hsub1 : List.Sublist pool1 pool := by
          rw [hsplit, hrem]
          exact List.Sublist.append (List.Sublist.refl l₁) (List.sublist_cons_self r l₂)
        have hlen1 : pool1.length < pool.length := by
          rw [hsplit, hrem]
          simp
        have hpw1 : (m :: pool).Pairwise rectDisjoint → (m1 :: pool1).Pairwise rectDisjoint := by
          intro hp
          rw [List.pairwise_cons] at hp
          rcases hp with ⟨hm, hp⟩
          rw [List.pairwise_cons]
          constructor
          · intro q hq px py h1 h2
            rcases (hmem px py).mp h1 with h1 | h1
            · exact hm q (hsub1.mem hq) px py h1 h2
            · exact pairwise_split_disj hp hsplit q (hrem ▸ hq) px py h1 h2
          · exact hp.sublist hsub1
        rw [hg]
        rcases ih m1 pool1 with ⟨ihc, ihp, ihs, ihe⟩
        refine ⟨?_, ?_, ihs.trans hsub1, ?_⟩
        · intro px py
          rw [ihc px py, hcov1 px py]
        · intro hp
          exact ihp (hpw1 hp)
        · intro hl
          have : (growRect fuel m1 pool1).2.length ≤ pool1.length := ihs.length_le
          omega
    · rcases p1 with ⟨m1, pool1⟩
      have hg : growRect (fuel + 1) m pool = growRect fuel m1 pool1 := by
        simp only [growRect, hv]
      rcases findAdj_eq hv with ⟨r, l₁, l₂, hsplit, hrem, hadj, hfuse⟩
      have hmem : ∀ px py, inRect m1 px py ↔ (inRect m px py ∨ inRect r px py) :=
        fun px py => hfuse ▸ vFuse_mem hadj px py
      have hcov1 : ∀ px py, unionMem (m1 :: pool1) px py ↔ unionMem (m :: pool) px py := by
        intro px py
        rw [hsplit, hrem, unionMem_cons, unionMem_cons, unionMem_append, unionMem_append,
          unionMem_cons, hmem px py]
        tauto
      have hsub1 : List.Sublist pool1 pool := by
        rw [hsplit, hrem]
        exact List.Sublist.append (List.Sublist.refl l₁) (List.sublist_cons_self r l₂)
      have hlen1 : pool1.length < pool.length := by
        rw [hsplit, hrem]
        simp
      have hpw1 : (m :: pool).Pairwise rectDisjoint → (m1 :: pool1).Pairwise rectDisjoint := by
        intro hp
        rw [List.pairwise_cons] at hp
        rcases hp with ⟨hm, hp⟩
        rw [List.pairwise_cons]
        constructor
        · intro q hq px py h1 h2
          rcases (hmem px py).mp h1 with h1 | h1
          · exact hm q (hsub1.mem hq) px py h1 h2
          · exact pairwise_split_disj hp hsplit q (hrem ▸ hq) px py h1 h2
        · exact hp.sublist hsub1
      rw [hg]
      rcases ih m1 pool1 with ⟨ihc, ihp, ihs, ihe⟩
      refine ⟨?_, ?_, ihs.trans hsub1, ?_⟩
      · intro px py
        rw [ihc px py, hcov1 px py]
      · intro hp
        exact ihp (hpw1 hp)
      · intro hl
        have : (growRect fuel m1 pool1).2.length ≤ pool1.length := ihs.length_le
        omega

theorem pairwise_disj_reverse {l : List Rect} (h : l.Pairwise rectDisjoint) :
    l.reverse.Pairwise rectDisjoint := by
  rw [List.pairwise_reverse]
  exact h.imp fun hab => rectDisjoint_symm hab

theorem pairwise_disj_reverse_append {acc pool : List Rect}
    (h : (acc ++ pool).Pairwise rectDisjoint) :
    (acc.reverse ++ pool).Pairwise rectDisjoint := by
  rw [List.pairwise_append] at h ⊢
  exact ⟨pairwise_disj_reverse h.1, h.2.1,
    fun a ha b hb => h.2.2 a (List.mem_reverse.mp ha) b hb⟩

/-- Invariants of a single merge pass: the pass preserves the covered pixel
set and pairwise disjointness, never grows the list, reports `changed = false`
only when it returned the input pool unchanged (after the processed prefix),
and shrinks the list strictly whenever it newly reports `changed = true`. -/
theorem passAux_spec : ∀ (fuel : Nat) (pool acc : List Rect) (changed : Bool),
    (∀ px py, unionMem (passAux fuel pool acc changed).1 px py ↔
      unionMem (acc ++ pool) px py)
    ∧ ((acc ++ pool).Pairwise rectDisjoint →
      (passAux fuel pool acc changed).1.Pairwise rectDisjoint)
    ∧ (passAux fuel pool acc changed).1.length ≤ acc.length + pool.length
    ∧ ((passAux fuel pool acc changed).2 = false →
      changed = false ∧ (passAux fuel pool acc changed).1 = acc.reverse ++ pool)
    ∧ (changed = false → (passAux fuel pool acc changed).2 = true →
      (passAux fuel pool acc changed).1.length < acc.length + pool.length) := by
  intro fuel
  induction fuel with
  | zero =>
    intro pool acc changed
    cases pool with
    | nil =>
      refine ⟨?_, ?_, ?_, ?_, ?_⟩
      · intro px py
        rw [show (passAux 0 [] acc changed).1 = acc.reverse from rfl]
        rw [unionMem_reverse, List.append_nil]
      · intro hp
        rw [show (passAux 0 [] acc changed).1 = acc.reverse from rfl]
        rw [List.append_nil] at hp
        exact pairwise_disj_reverse hp
      · simp [passAux]
      · intro h
        refine ⟨by simpa [passAux] using h, ?_⟩
        simp [passAux]
      · intro h1 h2
        rw [show (passAux 0 [] acc changed).2 = changed from rfl] at h2
        rw [h1] at h2
        cases h2
    | cons r rest =>
      refine ⟨?_, ?_, ?_, ?_, ?_⟩
      · intro px py
        rw [show (passAux 0 (r :: rest) acc changed).1 = acc.reverse ++ (r :: rest) from rfl]
        rw [unionMem_append, unionMem_append, unionMem_reverse]
      · intro hp
        rw [show (passAux 0 (r :: rest) acc changed).1 = acc.reverse ++ (r :: rest) from rfl]
        exact pairwise_disj_reverse_append hp
      · simp [passAux]
      · intro h
        refine ⟨by simpa [passAux] using h, rfl⟩
      · intro h1 h2
        rw [show (passAux 0 (r :: rest) acc changed).2 = changed from rfl] at h2
        rw [h1] at h2
        cases h2
  | succ fuel ih =>
    intro pool acc changed
    cases pool with
    | nil =>
      refine ⟨?_, ?_, ?_, ?_, ?_⟩
      · intro px py
        rw [show (passAux (fuel + 1) [] acc changed).1 = acc.reverse from rfl]
        rw [unionMem_reverse, List.append_nil]
      · intro hp
        rw [show (passAux (fuel + 1) [] acc changed).1 = acc.reverse from rfl]
        rw [List.append_nil] at hp
        exact pairwise_disj_reverse hp
      · simp [passAux]
      · intro h
        refine ⟨by simpa [passAux] using h, ?_⟩
        simp [passAux]
      · intro h1 h2
        rw [show (passAux (fuel + 1) [] acc changed).2 = changed from rfl] at h2
        rw [h1] at h2
        cases h2
    | cons r rest =>
      have hdef : passAux (fuel + 1) (r :: rest) acc changed =
          passAux fuel (growRect rest.length r rest).2
            ((growRect rest.length r rest).1 :: acc)
            (changed || decide ((growRect rest.length r rest).2.length < rest.length)) := rfl
      rcases growRect_spec rest.length r rest with ⟨hgc, hgp, hgs, hge⟩
      set p := growRect rest.length r rest with hp
      rcases ih p.2 (p.1 :: acc) (changed || decide (p.2.length < rest.length)) with
        ⟨ihc, ihp, ihl, ihe, ihs⟩
      have hlen2 : p.2.length ≤ rest.length := hgs.length_le
      refine ⟨?_, ?_, ?_, ?_, ?_⟩
      · intro px py
        rw [hdef, ihc px py]
        rw [show (p.1 :: acc) ++ p.2 = p.1 :: (acc ++ p.2) from rfl]
        rw [unionMem_cons, unionMem_append, unionMem_append, unionMem_cons]
        have h1 := hgc px py
        rw [unionMem_cons, unionMem_cons] at h1
        rw [or_left_comm]
        exact or_congr Iff.rfl h1
      · intro hpw
        rw [hdef]
        refine ihp ?_
        rw [List.pairwise_append] at hpw
        rcases hpw with ⟨hacc, hrr, hcross⟩
        have hgpw := hgp hrr
        rw [List.pairwise_cons] at hgpw
        have hdall : ∀ a ∈ acc, ∀ q ∈ p.1 :: p.2, rectDisjoint a q := by
          intro a ha
          exact disjAll_of_cover (fun px py hm => (hgc px py).mp hm)
            (fun q hq => hcross a ha q hq)
        rw [show (p.1 :: acc) ++ p.2 = p.1 :: (acc ++ p.2) from rfl, List.pairwise_cons]
        refine ⟨?_, ?_⟩
        · intro b hb
          rcases List.mem_append.mp hb with hb | hb
          · exact rectDisjoint_symm (hdall b hb p.1 (List.mem_cons_self _ _))
          · exact hgpw.1 b hb
        · rw [List.pairwise_append]
          exact ⟨hacc, hgpw.2,
            fun a ha b hb => hdall a ha b (List.mem_cons_of_mem _ hb)⟩
      · rw [hdef]
        refine le_trans ihl ?_
        simp only [List.length_cons]
        omega
      · intro h
        rw [hdef] at h
        rcases ihe h with ⟨hch, hres⟩
        rcases Bool.or_eq_false_iff.mp hch with ⟨hch1, hch2⟩
        have hnl : ¬ p.2.length < rest.length := by
          simpa using hch2
        have heq : p = (r, rest) := hge (by omega)
        refine ⟨hch1, ?_⟩
        rw [hdef, hres, heq]
        simp
      · intro h1 h2
        rw [hdef] at h2 ⊢
        by_cases hdx : p.2.length < rest.length
        · refine lt_of_le_of_lt ihl ?_
          simp only [List.length_cons]
          omega
        · have hch : (changed || decide (p.2.length < rest.length)) = false := by
            rw [h1, decide_eq_false hdx]
            rfl
          have hlt := ihs hch h2
          simp only [List.length_cons] at hlt ⊢
          omega

theorem mergePass_cover (rects : List Rect) (px py : Nat) :
    unionMem (mergePass rects).1 px py ↔ unionMem rects px py := by
  unfold mergePass
  simpa using (passAux_spec rects.length rects [] false).1 px py

theorem mergePass_pairwise {rects : List Rect} (h : rects.Pairwise rectDisjoint) :
    (mergePass rects).1.Pairwise rectDisjoint := by
  unfold mergePass
  exact (passAux_spec rects.length rects [] false).2.1 (by simpa using h)

theorem mergePass_unchanged {rects : List Rect} (h : (mergePass rects).2 = false) :
    (mergePass rects).1 = rects := by
  unfold mergePass at h ⊢
  have := ((passAux_spec rects.length rects [] false).2.2.2.1 h).2
  simpa using this

theorem mergePass_strict {rects : List Rect} (h : (mergePass rects).2 = true) :
    (mergePass rects).1.length < rects.length := by
  unfold mergePass at h ⊢
  have := (passAux_spec rects.length rects [] false).2.2.2.2 rfl h
  simpa using this

theorem mergeLoop_cover : ∀ (fuel : Nat) (rects : List Rect) (px py : Nat),
    unionMem (mergeLoop fuel rects) px py ↔ unionMem rects px py := by
  intro fuel
  induction fuel with
  | zero => intro rects px py; exact Iff.rfl
  | succ fuel ih =>
    intro rects px py
    have hdef : mergeLoop (fuel + 1) rects =
        if (mergePass rects).2 then mergeLoop fuel (mergePass rects).1
        else (mergePass rects).1 := rfl
    rw [hdef]
    by_cases hc : (mergePass rects).2
    · rw [if_pos hc, ih, mergePass_cover]
    · rw [if_neg hc, mergePass_cover]

theorem mergeLoop_pairwise : ∀ (fuel : Nat) (rects : List Rect),
    rects.Pairwise rectDisjoint → (mergeLoop fuel rects).Pairwise rectDisjoint := by
  intro fuel
  induction fuel with
  | zero => intro rects h; exact h
  | succ fuel ih =>
    intro rects h
    have hdef : mergeLoop (fuel + 1) rects =
        if (mergePass rects).2 then mergeLoop fuel (mergePass rects).1
        else (mergePass rects).1 := rfl
    rw [hdef]
    by_cases hc : (mergePass rects).2
    · rw [if_pos hc]
      exact ih _ (mergePass_pairwise h)
    · rw [if_neg hc]
      exact mergePass_pairwise h

/-- With fuel exceeding the list length the merge loop genuinely reaches the
fixpoint of the `while changed` loop: one more pass reports no change. -/
theorem mergeLoop_fix : ∀ (fuel : Nat) (rects : List Rect), rects.length < fuel →
    (mergePass (mergeLoop fuel rects)).2 = false := by
  intro fuel
  induction fuel with
  | zero => intro rects h; omega
  | succ fuel ih =>
    intro rects h
    have hdef : mergeLoop (fuel + 1) rects =
        if (mergePass rects).2 then mergeLoop fuel (mergePass rects).1
        else (mergePass rects).1 := rfl
    rw [hdef]
    by_cases hc : (mergePass rects).2
    · rw [if_pos hc]
      have := mergePass_strict hc
      exact ih _ (by omega)
    · rw [if_neg hc]
      rw [mergePass_unchanged (Bool.eq_false_iff.mpr hc)]
      exact Bool.eq_false_iff.mpr hc

/-- C1.  For every boolean bitmap, the rectangle list returned by
`bitmap_to_svg_rectangles` covers exactly the set of `true` pixels of the
input bitmap, and no two rectangles of the output overlap. -/
theorem bitmap_to_svg_rectangles_exact_cover (bm : List (List Bool)) :
    (∀ px py, unionMem (bitmap_to_svg_rectangles bm) px py ↔ bmGet bm px py = true)
    ∧ (bitmap_to_svg_rectangles bm).Pairwise rectDisjoint := by
  have hb : bitmap_to_svg_rectangles bm =
      mergeLoop ((seedRects bm).length + 1) (seedRects bm) := rfl
  constructor
  · intro px py
    rw [hb, mergeLoop_cover, seedRects_cover]
  · rw [hb]
    exact mergeLoop_pairwise _ _ (seedRects_pairwise bm)

/-- C4.  The repeated-pass merge loop of `bitmap_to_svg_rectangles`
terminates: any pass that merges at least one pair (reports `changed`)
strictly reduces the number of rectangles, and on the function's output one
further pass reports no change, i.e. the `while changed` loop exits. -/
theorem bitmap_to_svg_rectangles_terminates :
    (∀ rects : List Rect, (mergePass rects).2 = true →
      (mergePass rects).1.length < rects.length)
    ∧ ∀ bm : List (List Bool), (mergePass (bitmap_to_svg_rectangles bm)).2 = false := by
  constructor
  · intro rects h
    exact mergePass_strict h
  · intro bm
    exact mergeLoop_fix _ _ (Nat.lt_succ_self _)

/-- Witness for C4 at a concrete two-rectangle input on which a merge fires. -/
theorem bitmap_to_svg_rectangles_terminates_witness :
    (mergePass [⟨0, 0, 1, 1⟩, ⟨0, 1, 1, 1⟩]).2 = true
    ∧ (mergePass [⟨0, 0, 1, 1⟩, ⟨0, 1, 1, 1⟩]).1.length <
      ([⟨0, 0, 1, 1⟩, ⟨0, 1, 1, 1⟩] : List Rect).length :=
  ⟨by decide, bitmap_to_svg_rectangles_terminates.1 [⟨0, 0, 1, 1⟩, ⟨0, 1, 1, 1⟩] (by decide)⟩

/-- C2.  `qualify_oled` accepts exactly when the confidence meets the
threshold and the accumulated reason list is empty (equivalently, the returned
one), and a rejection always carries a non-empty reason list. -/
theorem qualify_oled_accepted_iff (bbox : Option (ℚ × ℚ × ℚ × ℚ)) (confidence : ℚ)
    (metrics : List (String × ℚ)) (diagramConfidence : Option ℚ)
    (threshold diagramThreshold : ℚ) :
    ((qualify_oled bbox confidence metrics diagramConfidence threshold diagramThreshold).1 = true ↔
      threshold ≤ confidence ∧
        (qualify_oled bbox confidence metrics diagramConfidence threshold diagramThreshold).2 = [])
    ∧ ((qualify_oled bbox confidence metrics diagramConfidence threshold diagramThreshold).1 = false →
      (qualify_oled bbox confidence metrics diagramConfidence threshold diagramThreshold).2 ≠ []) := by
  cases bbox with
  | none =>
    constructor
    · constructor
      · intro h
        simp [qualify_oled] at h
      · rintro ⟨_, h2⟩
        simp [qualify_oled] at h2
    · intro _
      simp [qualify_oled]
  | some b =>
    have hdef : qualify_oled (some b) confidence metrics diagramConfidence threshold diagramThreshold =
        (let rs := qualifyReasons b confidence metrics diagramConfidence threshold diagramThreshold
         let isQ := decide (threshold ≤ confidence) && rs.isEmpty
         if !isQ && rs.isEmpty then (isQ, rs ++ ["unknown"]) else (isQ, rs)) := rfl
    rw [hdef]
    by_cases hc : threshold ≤ confidence
    · cases hrs : qualifyReasons b confidence metrics diagramConfidence threshold diagramThreshold with
      | nil => simp [hc]
      | cons a t => simp [hc]
    · cases hrs : qualifyReasons b confidence metrics diagramConfidence threshold diagramThreshold with
      | nil => simp [hc]
      | cons a t => simp [hc]

/-- Witness for C2 at the null bbox: rejected with the non-empty reason list. -/
theorem qualify_oled_accepted_iff_witness :
    (qualify_oled none 0 [] none 1 1).1 = false ∧ (qualify_oled none 0 [] none 1 1).2 ≠ [] :=
  ⟨by decide, (qualify_oled_accepted_iff none 0 [] none 1 1).2 (by decide)⟩

/-- C6 counterexample: the bbox `(20, 20, 600, 100)` has width/height aspect
ratio `600 / 100 = 6.0`, yet with an empty metrics dict (a legal metrics map)
and confidence `1`, `qualify_oled` accepts — the aspect check reads only
`metrics["aspect_ratio"]`, never the bbox itself. -/
theorem qualify_oled_aspect_six_counterexample :
    (600 : ℚ) / 100 = 6 ∧
      qualify_oled (some (20, 20, 600, 100)) 1 [] none (mkRat 3 4) (mkRat 2 5) = (true, []) := by
  constructor
  · norm_num
  · decide

/-- C6 amended: whenever the metrics map records aspect ratio `6.0`,
`qualify_oled` rejects — for every confidence — and `aspect_ratio` is among
the returned reasons. -/
theorem qualify_oled_aspect_six_rejected (b : ℚ × ℚ × ℚ × ℚ) (confidence : ℚ)
    (metrics : List (String × ℚ)) (diagramConfidence : Option ℚ)
    (threshold diagramThreshold : ℚ)
    (h : dlookupQ metrics "aspect_ratio" = some 6) :
    (qualify_oled (some b) confidence metrics diagramConfidence threshold diagramThreshold).1 = false
    ∧ "aspect_ratio" ∈
      (qualify_oled (some b) confidence metrics diagramConfidence threshold diagramThreshold).2 := by
  have har : aspectReasons metrics = ["aspect_ratio"] := by
    unfold aspectReasons
    rw [h]
    norm_num
  have hmem : "aspect_ratio" ∈
      qualifyReasons b confidence metrics diagramConfidence threshold diagramThreshold := by
    unfold qualifyReasons
    rw [har]
    simp
  have hne : qualifyReasons b confidence metrics diagramConfidence threshold diagramThreshold ≠ [] := by
    intro hh
    rw [hh] at hmem
    simp at hmem
  have hdef : qualify_oled (some b) confidence metrics diagramConfidence threshold diagramThreshold =
      (let rs := qualifyReasons b confidence metrics diagramConfidence threshold diagramThreshold
       let isQ := decide (threshold ≤ confidence) && rs.isEmpty
       if !isQ && rs.isEmpty then (isQ, rs ++ ["unknown"]) else (isQ, rs)) := rfl
  rw [hdef]
  have hempty : (qualifyReasons b confidence metrics diagramConfidence threshold diagramThreshold).isEmpty = false := by
    cases hrs : qualifyReasons b confidence metrics diagramConfidence threshold diagramThreshold with
    | nil => exact absurd hrs hne
    | cons a t => rfl
  simp only [hempty, Bool.and_false]
  exact ⟨rfl, hmem⟩

/-- Witness for the amended C6 at a concrete metrics map carrying
`aspect_ratio = 6`. -/
theorem qualify_oled_aspect_six_rejected_witness :
    dlookupQ [("aspect_ratio", (6 : ℚ))] "aspect_ratio" = some 6 ∧
    ((qualify_oled (some (0, 0, 600, 100)) 1 [("aspect_ratio", (6 : ℚ))] none (mkRat 3 4) (mkRat 2 5)).1 = false
      ∧ "aspect_ratio" ∈
        (qualify_oled (some (0, 0, 600, 100)) 1 [("aspect_ratio", (6 : ℚ))] none (mkRat 3 4) (mkRat 2 5)).2) :=
  ⟨by decide,
    qualify_oled_aspect_six_rejected (0, 0, 600, 100) 1 [("aspect_ratio", (6 : ℚ))] none (mkRat 3 4) (mkRat 2 5)
      (by decide)⟩

theorem aspectScoreOf_nonneg (c : Candidate) : 0 ≤ aspectScoreOf c := by
  unfold aspectScoreOf
  dsimp only
  split_ifs
  · exact le_refl 0
  · exact le_max_left 0 _

theorem areaPenaltyOf_pos (totalArea : ℚ) (c : Candidate) : 0 < areaPenaltyOf totalArea c := by
  unfold areaPenaltyOf
  dsimp only
  split_ifs
  · rw [Rat.mkRat_eq_div]; norm_num
  · rw [Rat.mkRat_eq_div]; norm_num
  · norm_num

theorem contrastScoreOf_nonneg (c : Candidate) (h : 0 ≤ c.roiStd) : 0 ≤ contrastScoreOf c := by
  unfold contrastScoreOf
  split_ifs
  · exact le_min (div_nonneg h (by norm_num)) (by norm_num)
  · exact le_refl 0

theorem positionScoreOf_nonneg (c : Candidate) : 0 ≤ positionScoreOf c :=
  le_max_left 0 _

theorem rectangularityOf_nonneg (c : Candidate) (h : 0 ≤ c.contourArea) :
    0 ≤ rectangularityOf c := by
  unfold rectangularityOf
  split_ifs with h2
  · exact div_nonneg h (le_of_lt h2)
  · exact le_refl 0

theorem sizeScoreOf_nonneg (c : Candidate) : 0 ≤ sizeScoreOf c := by
  unfold sizeScoreOf
  split_ifs
  · rw [Rat.mkRat_eq_div]; norm_num
  · exact le_refl 0

/-- A candidate that survives the minimum-area filter scores strictly positive
confidence (its area-fraction term is strictly positive, every other term is
non-negative, and both penalty factors are strictly positive). -/
theorem confidenceOf_pos (totalArea minFrac : ℚ) (c : Candidate)
    (hT : 0 < totalArea) (hF : 0 < minFrac)
    (hca : 0 ≤ c.contourArea) (hstd : 0 ≤ c.roiStd)
    (hpass : ¬ c.w * c.h < totalArea * minFrac) :
    0 < confidenceOf totalArea c := by
  have harea : 0 < c.w * c.h := lt_of_lt_of_le (mul_pos hT hF) (not_lt.mp hpass)
  have haf : 0 < c.w * c.h / totalArea := div_pos harea hT
  have hmin : 0 < min (c.w * c.h / totalArea) (mkRat 1 2) :=
    lt_min haf (by rw [Rat.mkRat_eq_div]; norm_num)
  have hfifth : (0 : ℚ) < mkRat 1 5 := by rw [Rat.mkRat_eq_div]; norm_num
  have hpen := areaPenaltyOf_pos totalArea c
  have hT2 : 0 < min (c.w * c.h / totalArea) (mkRat 1 2) * 2 * mkRat 1 5 *
      areaPenaltyOf totalArea c :=
    mul_pos (mul_pos (mul_pos hmin (by norm_num)) hfifth) hpen
  have h1 : 0 ≤ aspectScoreOf c * mkRat 3 10 :=
    mul_nonneg (aspectScoreOf_nonneg c) (by rw [Rat.mkRat_eq_div]; norm_num)
  have h3 : 0 ≤ rectangularityOf c * mkRat 1 5 :=
    mul_nonneg (rectangularityOf_nonneg c hca) (le_of_lt hfifth)
  have h4 : 0 ≤ contrastScoreOf c * mkRat 3 20 :=
    mul_nonneg (contrastScoreOf_nonneg c hstd) (by rw [Rat.mkRat_eq_div]; norm_num)
  have h5 : 0 ≤ positionScoreOf c * mkRat 3 20 :=
    mul_nonneg (positionScoreOf_nonneg c) (by rw [Rat.mkRat_eq_div]; norm_num)
  have h6 := sizeScoreOf_nonneg c
  unfold confidenceOf
  refine mul_pos ?_ hpen
  have s1 : 0 < aspectScoreOf c * mkRat 3 10 +
      min (c.w * c.h / totalArea) (mkRat 1 2) * 2 * mkRat 1 5 * areaPenaltyOf totalArea c :=
    add_pos_of_nonneg_of_pos h1 hT2
  have s2 := add_pos_of_pos_of_nonneg s1 h3
  have s3 := add_pos_of_pos_of_nonneg s2 h4
  have s4 := add_pos_of_pos_of_nonneg s3 h5
  exact add_pos_of_pos_of_nonneg s4 h6

/-- Invariant of the selection fold: the final best bbox is `none` exactly
when it started as `none` and every candidate failed the minimum-area filter,
and in that case the whole state is untouched. -/
theorem selectStep_fold_spec (totalArea minFrac : ℚ) (hT : 0 < totalArea) (hF : 0 < minFrac) :
    ∀ (cands : List Candidate) (init : Option (ℚ × ℚ × ℚ × ℚ) × ℚ × List (String × ℚ)),
    (∀ c ∈ cands, 0 ≤ c.contourArea ∧ 0 ≤ c.roiStd) →
    (init.1 = none → init.2.1 = 0) →
    ((cands.foldl (selectStep totalArea minFrac) init).1 = none ↔
      (init.1 = none ∧ ∀ c ∈ cands, c.w * c.h < totalArea * minFrac))
    ∧ ((cands.foldl (selectStep totalArea minFrac) init).1 = none →
      cands.foldl (selectStep totalArea minFrac) init = init) := by
  intro cands
  induction cands with
  | nil =>
    intro init _ _
    simp
  | cons c rest ih =>
    intro init hwf hinv
    have hwfc := hwf c (List.mem_cons_self _ _)
    have hwfr : ∀ x ∈ rest, 0 ≤ x.contourArea ∧ 0 ≤ x.roiStd :=
      fun x hx => hwf x (List.mem_cons_of_mem _ hx)
    rw [List.foldl_cons]
    by_cases hskip : c.w * c.h < totalArea * minFrac
    · have hstep : selectStep totalArea minFrac init c = init := by
        unfold selectStep
        rw [if_pos hskip]
      rw [hstep]
      rcases ih init hwfr hinv with ⟨ih1, ih2⟩
      constructor
      · rw [ih1]
        simp only [List.mem_cons]
        constructor
        · rintro ⟨ha, hb⟩
          exact ⟨ha, fun x hx => by
            rcases hx with hx | hx
            · subst hx; exact hskip
            · exact hb x hx⟩
        · rintro ⟨ha, hb⟩
          exact ⟨ha, fun x hx => hb x (Or.inr hx)⟩
      · exact ih2
    · have hconf := confidenceOf_pos totalArea minFrac c hT hF hwfc.1 hwfc.2 hskip
      have hsome : ∃ b, (selectStep totalArea minFrac init c).1 = some b := by
        unfold selectStep
        rw [if_neg hskip]
        by_cases hbeat : init.2.1 < confidenceOf totalArea c
        · rw [if_pos hbeat]
          exact ⟨(c.x, c.y, c.w, c.h), rfl⟩
        · rw [if_neg hbeat]
          rcases hb : init.1 with _ | b
          · have := hinv hb
            rw [this] at hbeat
            exact absurd hconf hbeat
          · exact ⟨b, rfl⟩
      rcases hsome with ⟨b, hb⟩
      rcases ih (selectStep totalArea minFrac init c)
          hwfr (fun hn => by rw [hn] at hb; cases hb) with ⟨ih1, ih2⟩
      constructor
      · rw [ih1]
        constructor
        · rintro ⟨ha, _⟩
          rw [hb] at ha
          cases ha
        · rintro ⟨_, hall⟩
          exact absurd (hall c (List.mem_cons_self _ _)) hskip
      · intro hnone
        have := ih2 hnone
        rw [this] at hnone
        rw [hb] at hnone
        cases hnone

/-- C3.  `detect_oled_bbox` returns a null bbox exactly when no candidate
contour's bounding rectangle meets the minimum-area filter, and the full
return value is `(None, 0.0, {bbox_missing: 1.0})` exactly in that case. -/
theorem detect_oled_bbox_null_iff (totalArea minFrac : ℚ) (cands : List Candidate)
    (refineFn : (ℚ × ℚ × ℚ × ℚ) → (ℚ × ℚ × ℚ × ℚ) × Bool × List (String × ℚ))
    (hT : 0 < totalArea) (hF : 0 < minFrac)
    (hwf : ∀ c ∈ cands, 0 ≤ c.contourArea ∧ 0 ≤ c.roiStd) :
    ((detect_oled_bbox totalArea minFrac cands refineFn).1 = none ↔
      ∀ c ∈ cands, c.w * c.h < totalArea * minFrac)
    ∧ (detect_oled_bbox totalArea minFrac cands refineFn = (none, 0, [("bbox_missing", 1)]) ↔
      (detect_oled_bbox totalArea minFrac cands refineFn).1 = none) := by
  rcases selectStep_fold_spec totalArea minFrac hT hF cands (none, 0, []) hwf (fun _ => rfl)
    with ⟨hiff, huntouched⟩
  simp only [true_and] at hiff
  by_cases hempty : cands.isEmpty
  · have hnil : cands = [] := List.isEmpty_iff.mp hempty
    subst hnil
    have hd : detect_oled_bbox totalArea minFrac [] refineFn = (none, 0, [("bbox_missing", 1)]) := rfl
    rw [hd]
    constructor
    · simp
    · simp
  · have hdef : detect_oled_bbox totalArea minFrac cands refineFn =
        (match selectBest totalArea minFrac cands with
        | (none, _, _) => (none, 0, [("bbox_missing", 1)])
        | (some b, score, ms) =>
          let r := refineFn b
          if r.2.1 then
            let ms1 := dupdateQ ms r.2.2
            let ms2 := dinsertQ ms1 "area_fraction" (r.1.2.2.1 * r.1.2.2.2 / totalArea)
            let ms3 := dinsertQ ms2 "aspect_ratio"
              (if 0 < r.1.2.2.2 then r.1.2.2.1 / r.1.2.2.2 else 0)
            (some r.1, score, ms3)
          else (some b, score, ms)) := by
      unfold detect_oled_bbox
      rw [if_neg hempty]
    rcases hsel : selectBest totalArea minFrac cands with ⟨bb, score, ms⟩
    have hsel1 : (selectBest totalArea minFrac cands).1 = bb := by rw [hsel]
    cases bb with
    | none =>
      have hfold : (List.foldl (selectStep totalArea minFrac) (none, 0, []) cands).1 = none := by
        have heq : List.foldl (selectStep totalArea minFrac) (none, 0, []) cands =
            selectBest totalArea minFrac cands := rfl
        rw [heq, hsel]
      have hres : detect_oled_bbox totalArea minFrac cands refineFn =
          (none, 0, [("bbox_missing", 1)]) := by
        rw [hdef, hsel]
      rw [hres]
      refine ⟨⟨fun _ => hiff.mp hfold, fun _ => rfl⟩, fun _ => rfl, fun _ => rfl⟩
    | some b =>
      have hres1 : (detect_oled_bbox totalArea minFrac cands refineFn).1 ≠ none := by
        rw [hdef, hsel]
        by_cases hr : (refineFn b).2.1
        · simp [hr]
        · simp [hr]
      constructor
      · constructor
        · intro h
          exact absurd h hres1
        · intro hall
          have : (selectBest totalArea minFrac cands).1 = none := by
            unfold selectBest
            exact hiff.mpr hall
          rw [hsel1] at this
          cases this
      · constructor
        · intro h
          rw [h]
        · intro h
          exact absurd h hres1

/-- Witness for C3 at a concrete one-candidate input that passes the
minimum-area filter. -/
theorem detect_oled_bbox_null_iff_witness :
    (0 : ℚ) < 100 ∧ (0 : ℚ) < mkRat 1 100 ∧
    (((detect_oled_bbox 100 (mkRat 1 100) [⟨0, 0, 10, 10, 100, 0, true⟩]
        (fun b => (b, false, []))).1 = none ↔
      ∀ c ∈ [(⟨0, 0, 10, 10, 100, 0, true⟩ : Candidate)],
        c.w * c.h < 100 * mkRat 1 100)
    ∧ (detect_oled_bbox 100 (mkRat 1 100) [⟨0, 0, 10, 10, 100, 0, true⟩]
        (fun b => (b, false, [])) = (none, 0, [("bbox_missing", 1)]) ↔
      (detect_oled_bbox 100 (mkRat 1 100) [⟨0, 0, 10, 10, 100, 0, true⟩]
        (fun b => (b, false, []))).1 = none)) :=
  ⟨by decide, by decide,
    detect_oled_bbox_null_iff 100 (mkRat 1 100) [⟨0, 0, 10, 10, 100, 0, true⟩]
      (fun b => (b, false, [])) (by decide) (by decide) (by decide)⟩

/-- A pixel other than the written one is unchanged by `setPx`. -/
theorem bmGet_setPx_ne (bm : List (List Bool)) (x0 y0 : Nat) (v : Bool) (px py : Nat)
    (h : ¬(px = x0 ∧ py = y0)) : bmGet (setPx bm x0 y0 v) px py = bmGet bm px py := by
  unfold bmGet setPx
  by_cases hy : py = y0
  · subst hy
    have hx : px ≠ x0 := fun hx => h ⟨hx, rfl⟩
    by_cases hlen : py < bm.length
    · have hrow : (bm.set py ((bm.getD py []).set x0 v)).getD py [] = (bm.getD py []).set x0 v := by
        rw [List.getD_eq_getElem?_getD, List.getElem?_set_self', List.getElem?_eq_getElem hlen]
        rw [List.getD_eq_getElem?_getD, List.getElem?_eq_getElem hlen]
        rfl
      rw [hrow, List.getD_eq_getElem?_getD, List.getElem?_set_ne (fun hh => hx hh.symm),
        ← List.getD_eq_getElem?_getD]
    · have hrow : bm.set py ((bm.getD py []).set x0 v) = bm :=
        List.set_eq_of_length_le (by omega)
      rw [hrow]
  · have hrow : (bm.set y0 ((bm.getD y0 []).set x0 v)).getD py [] = bm.getD py [] := by
      rw [List.getD_eq_getElem?_getD, List.getElem?_set_ne (fun hh => hy hh.symm),
        ← List.getD_eq_getElem?_getD]
    rw [hrow]

/-- Out-of-range override coordinates are no-ops: filtering them away does not
change the result of an override loop. -/
theorem applyForce_filter (v : Bool) (coords : List (Int × Int)) :
    ∀ bm, applyForce v bm coords = applyForce v bm (coords.filter coordInRange) := by
  induction coords with
  | nil => intro bm; rfl
  | cons c rest ih =>
    intro bm
    by_cases hc : 0 ≤ c.1 ∧ c.1 < 128 ∧ 0 ≤ c.2 ∧ c.2 < 64
    · have hfil : (c :: rest).filter coordInRange = c :: rest.filter coordInRange := by
        rw [List.filter_cons, if_pos (by simpa [coordInRange] using hc)]
      rw [hfil]
      show applyForce v (if 0 ≤ c.1 ∧ c.1 < 128 ∧ 0 ≤ c.2 ∧ c.2 < 64
          then setPx bm c.1.toNat c.2.toNat v else bm) rest =
        applyForce v (if 0 ≤ c.1 ∧ c.1 < 128 ∧ 0 ≤ c.2 ∧ c.2 < 64
          then setPx bm c.1.toNat c.2.toNat v else bm) (rest.filter coordInRange)
      exact ih _
    · have hfil : (c :: rest).filter coordInRange = rest.filter coordInRange := by
        rw [List.filter_cons, if_neg (by simpa [coordInRange] using hc)]
      rw [hfil]
      show applyForce v (if 0 ≤ c.1 ∧ c.1 < 128 ∧ 0 ≤ c.2 ∧ c.2 < 64
          then setPx bm c.1.toNat c.2.toNat v else bm) rest =
        applyForce v bm (rest.filter coordInRange)
      rw [if_neg hc]
      exact ih bm

/-- An override loop leaves every pixel not listed in its coordinates
unchanged. -/
theorem applyForce_get_notmem (v : Bool) (coords : List (Int × Int)) :
    ∀ (bm : List (List Bool)) (px py : Nat), ((px : Int), (py : Int)) ∉ coords →
    bmGet (applyForce v bm coords) px py = bmGet bm px py := by
  induction coords with
  | nil => intro bm px py _; rfl
  | cons c rest ih =>
    intro bm px py hmem
    have hne : ((px : Int), (py : Int)) ≠ c := fun hh => hmem (hh ▸ List.mem_cons_self _ _)
    have hrest : ((px : Int), (py : Int)) ∉ rest := fun hh => hmem (List.mem_cons_of_mem _ hh)
    show bmGet (applyForce v (if 0 ≤ c.1 ∧ c.1 < 128 ∧ 0 ≤ c.2 ∧ c.2 < 64
        then setPx bm c.1.toNat c.2.toNat v else bm) rest) px py = _
    rw [ih _ px py hrest]
    by_cases hc : 0 ≤ c.1 ∧ c.1 < 128 ∧ 0 ≤ c.2 ∧ c.2 < 64
    · rw [if_pos hc]
      refine bmGet_setPx_ne bm _ _ v px py ?_
      rintro ⟨hx, hy⟩
      refine hne ?_
      have hx' : (px : Int) = c.1 := by
        rw [hx, Int.toNat_of_nonneg hc.1]
      have hy' : (py : Int) = c.2 := by
        rw [hy, Int.toNat_of_nonneg hc.2.2.1]
      rw [hx', hy']
    · rw [if_neg hc]

/-- C10.  `binarize` is total over override coordinates: out-of-range
`force_on`/`force_off` coordinates are silently skipped (filtering them away
gives the same bitmap), and the output agrees with the pure threshold result
at every pixel not named by an override coordinate. -/
theorem binarize_override_safety (image : List (List Nat)) (otsuValue : ℚ)
    (threshold : Option ℚ) (ov : Overrides) :
    binarize image otsuValue threshold (some ov) =
      binarize image otsuValue threshold
        (some ⟨ov.force_on.filter coordInRange, ov.force_off.filter coordInRange⟩)
    ∧ ∀ px py : Nat,
      ((px : Int), (py : Int)) ∉ ov.force_on →
      ((px : Int), (py : Int)) ∉ ov.force_off →
      bmGet (binarize image otsuValue threshold (some ov)) px py =
        bmGet (binarize image otsuValue threshold none) px py := by
  constructor
  · show applyForce false (applyForce true _ ov.force_on) ov.force_off = _
    rw [applyForce_filter true ov.force_on, applyForce_filter false ov.force_off]
    rfl
  · intro px py hon hoff
    show bmGet (applyForce false (applyForce true _ ov.force_on) ov.force_off) px py = _
    rw [applyForce_get_notmem false ov.force_off _ px py hoff,
      applyForce_get_notmem true ov.force_on _ px py hon]
    rfl

/-- Witness for C10: an override list containing an out-of-range coordinate,
checked at a pixel named by no override. -/
theorem binarize_override_safety_witness :
    (((0 : Nat) : Int), ((0 : Nat) : Int)) ∉ [((1 : Int), (0 : Int)), (999, 0)] ∧
    (((0 : Nat) : Int), ((0 : Nat) : Int)) ∉ ([] : List (Int × Int)) ∧
    bmGet (binarize [[5, 200]] 0 (some 100) (some ⟨[(1, 0), (999, 0)], []⟩)) 0 0 =
      bmGet (binarize [[5, 200]] 0 (some 100) none) 0 0 :=
  ⟨by decide, by decide,
    (binarize_override_safety [[5, 200]] 0 (some 100) ⟨[(1, 0), (999, 0)], []⟩).2 0 0
      (by decide) (by decide)⟩

/-- Auxiliary: flattening `n` copies of a one-element row. -/
theorem flatten_replicate_singleton (a : Nat) : ∀ n : Nat,
    (List.replicate n [a]).flatten = List.replicate n a := by
  intro n
  induction n with
  | zero => rfl
  | succ n ih =>
    rw [List.replicate_succ, List.replicate_succ, List.flatten_cons, ih]
    rfl

/-- C9.  `hash_component` depends only on the row-major flattened byte
sequence, not on the grid's width and height: any two component bitmaps with
equal flattened bytes hash identically, and in particular the `1×n`
horizontal bar and the `n×1` vertical bar — distinct pixel patterns for
`n ≥ 2` — collide for every hash function. -/
theorem hash_component_shape_blind (sha256hex : List Nat → String) :
    (∀ c₁ c₂ : List (List Bool), toBytes c₁ = toBytes c₂ →
      hash_component sha256hex c₁ = hash_component sha256hex c₂)
    ∧ ∀ n : Nat, 2 ≤ n →
      ([List.replicate n true] ≠ List.replicate n [true]
        ∧ hash_component sha256hex [List.replicate n true] =
          hash_component sha256hex (List.replicate n [true])) := by
  constructor
  · intro c₁ c₂ h
    unfold hash_component
    rw [h]
  · intro n hn
    constructor
    · intro h
      have hlen := congrArg List.length h
      simp at hlen
      omega
    · unfold hash_component
      congr 1
      unfold toBytes
      rw [List.map_replicate]
      have h1 : ([List.replicate n true].map fun row => row.map fun b =>
          if b then 1 else 0).flatten = List.replicate n 1 := by
        simp [List.map_replicate]
      rw [h1, show ([true].map fun b => if b then (1 : Nat) else 0) = [1] from rfl,
        flatten_replicate_singleton]

/-- Witness for C9 at `n = 2`: the `1×2` bar and the `2×1` bar are different
grids with the same digest. -/
theorem hash_component_shape_blind_witness :
    2 ≤ 2 ∧
    ([List.replicate 2 true] ≠ List.replicate 2 [true]
      ∧ hash_component (fun _ => "") [List.replicate 2 true] =
        hash_component (fun _ => "") (List.replicate 2 [true])) :=
  ⟨by decide, (hash_component_shape_blind (fun _ => "")).2 2 (by decide)⟩

theorem dlookup_dinsert_self : ∀ (d : List (String × Val)) (k : String) (v : Val),
    dlookup (dinsert d k v) k = some v := by
  intro d
  induction d with
  | nil => intro k v; simp [dinsert, dlookup]
  | cons p rest ih =>
    intro k v
    obtain ⟨k', v'⟩ := p
    rw [show dinsert ((k', v') :: rest) k v =
      if k' = k then (k, v) :: rest else (k', v') :: dinsert rest k v from rfl]
    by_cases hk : k' = k
    · rw [if_pos hk]
      simp [dlookup]
    · rw [if_neg hk]
      rw [show dlookup ((k', v') :: dinsert rest k v) k =
        if k' = k then some v' else dlookup (dinsert rest k v) k from rfl]
      rw [if_neg hk]
      exact ih k v

theorem dlookup_dinsert_ne : ∀ (d : List (String × Val)) (k key : String) (v : Val),
    k ≠ key → dlookup (dinsert d k v) key = dlookup d key := by
  intro d
  induction d with
  | nil =>
    intro k key v h
    simp [dinsert, dlookup, h]
  | cons p rest ih =>
    intro k key v h
    obtain ⟨k', v'⟩ := p
    rw [show dinsert ((k', v') :: rest) k v =
      if k' = k then (k, v) :: rest else (k', v') :: dinsert rest k v from rfl]
    by_cases hk : k' = k
    · rw [if_pos hk]
      rw [show dlookup ((k, v) :: rest) key =
        if k = key then some v else dlookup rest key from rfl]
      rw [if_neg h]
      rw [show dlookup ((k', v') :: rest) key =
        if k' = key then some v' else dlookup rest key from rfl]
      rw [if_neg (hk ▸ h)]
    · rw [if_neg hk]
      rw [show dlookup ((k', v') :: dinsert rest k v) key =
        if k' = key then some v' else dlookup (dinsert rest k v) key from rfl]
      rw [show dlookup ((k', v') :: rest) key =
        if k' = key then some v' else dlookup rest key from rfl]
      by_cases hp : k' = key
      · rw [if_pos hp, if_pos hp]
      · rw [if_neg hp, if_neg hp]
        exact ih k key v h

theorem dhas_eq_false_iff (d : List (String × Val)) (k : String) :
    dhas d k = false ↔ ∀ p ∈ d, p.1 ≠ k := by
  rw [← Bool.not_eq_true]
  simp only [dhas, List.any_eq_true, beq_iff_eq, not_exists, not_and]

theorem dlookup_eq_none_of_dhas_false {d : List (String × Val)} {k : String}
    (h : dhas d k = false) : dlookup d k = none := by
  induction d with
  | nil => rfl
  | cons p rest ih =>
    rw [dhas_eq_false_iff] at h
    rw [show dlookup (p :: rest) k = if p.1 = k then some p.2 else dlookup rest k from rfl]
    rw [if_neg (h p (List.mem_cons_self _ _))]
    exact ih ((dhas_eq_false_iff rest k).mpr fun q hq => h q (List.mem_cons_of_mem _ hq))

theorem dlookup_dupdate_notmem : ∀ (u : List (String × Val)) (k : String),
    dhas u k = false → ∀ d, dlookup (dupdate d u) k = dlookup d k := by
  intro u
  induction u with
  | nil => intro k _ d; rfl
  | cons p rest ih =>
    intro k h d
    rw [dhas_eq_false_iff] at h
    have h1 : p.1 ≠ k := h p (List.mem_cons_self _ _)
    have h2 : dhas rest k = false :=
      (dhas_eq_false_iff rest k).mpr fun q hq => h q (List.mem_cons_of_mem _ hq)
    rw [show dupdate d (p :: rest) = dupdate (dinsert d p.1 p.2) rest from rfl]
    rw [ih k h2, dlookup_dinsert_ne _ _ _ _ h1]

theorem dlookup_dupdate_mem : ∀ (u : List (String × Val)) (k : String) (v : Val),
    (u.map Prod.fst).Nodup → dlookup u k = some v →
    ∀ d, dlookup (dupdate d u) k = some v := by
  intro u
  induction u with
  | nil => intro k v _ h; simp [dlookup] at h
  | cons p rest ih =>
    intro k v hnd hv d
    rw [List.map_cons, List.nodup_cons] at hnd
    rw [show dlookup (p :: rest) k = if p.1 = k then some p.2 else dlookup rest k from rfl] at hv
    rw [show dupdate d (p :: rest) = dupdate (dinsert d p.1 p.2) rest from rfl]
    by_cases hk : p.1 = k
    · rw [if_pos hk] at hv
      have hrest : dhas rest k = false := by
        rw [dhas_eq_false_iff]
        intro q hq hqk
        exact hnd.1 (hk ▸ hqk ▸ List.mem_map_of_mem Prod.fst hq)
      rw [dlookup_dupdate_notmem rest k hrest, hk, dlookup_dinsert_self]
      exact hv
    · rw [if_neg hk] at hv
      exact ih k v hnd.2 hv _


theorem UpdOk_cons_step {k0 : String} {v0 w0 : Val} {rest acc : List (String × Val)}
    (hdr : dhas rest k0 = false)
    (hok : UpdOk ((k0, v0) :: rest) acc) :
    UpdOk rest (dinsert acc k0 w0) := by
  intro k m hkov hk
  have hkne : k ≠ k0 := by
    intro hh
    rw [hh, dlookup_eq_none_of_dhas_false hdr] at hk
    cases hk
  rw [dlookup_dinsert_ne _ _ _ _ fun hh => hkne hh.symm]
  refine hok k m hkov ?_
  rw [show dlookup ((k0, v0) :: rest) k =
    if k0 = k then some v0 else dlookup rest k from rfl,
    if_neg fun hh => hkne hh.symm]
  exact hk

theorem UpdSpec_cons_step {k0 : String} {v0 w0 : Val} {rest acc r : List (String × Val)}
    (hdr : dhas rest k0 = false)
    (hspec : UpdSpec rest (dinsert acc k0 w0) r)
    (cw1 : ¬(k0 = "overrides" ∨ k0 = "flags") → w0 = v0)
    (cw2 : ∀ m c, (k0 = "overrides" ∨ k0 = "flags") → v0 = Val.vdict m →
      dlookup acc k0 = some (Val.vdict c) → w0 = Val.vdict (dupdate c m))
    (cw3 : ∀ m, (k0 = "overrides" ∨ k0 = "flags") → v0 = Val.vdict m →
      dlookup acc k0 = none → w0 = Val.vdict (dupdate [] m)) :
    UpdSpec ((k0, v0) :: rest) acc r := by
  obtain ⟨h1, h2, h3, h4⟩ := hspec
  have hrk0 : dlookup r k0 = some w0 := by
    rw [h1 k0 hdr, dlookup_dinsert_self]
  have hlk0 : dlookup ((k0, v0) :: rest) k0 = some v0 := by
    rw [show dlookup ((k0, v0) :: rest) k0 =
      if k0 = k0 then some v0 else dlookup rest k0 from rfl, if_pos rfl]
  have hlkne : ∀ k, k ≠ k0 → dlookup ((k0, v0) :: rest) k = dlookup rest k := by
    intro k hk
    rw [show dlookup ((k0, v0) :: rest) k =
      if k0 = k then some v0 else dlookup rest k from rfl, if_neg fun hh => hk hh.symm]
  refine ⟨?_, ?_, ?_, ?_⟩
  · intro k hk
    have hco : ((k0 == k) || dhas rest k) = false := hk
    rcases Bool.or_eq_false_iff.mp hco with ⟨hk1, hk2⟩
    have hkne : k ≠ k0 := by
      intro hh
      rw [hh] at hk1
      simp at hk1
    rw [h1 k hk2, dlookup_dinsert_ne _ _ _ _ fun hh => hkne hh.symm]
  · intro k v hk hk1 hk2
    by_cases hkk : k = k0
    · subst hkk
      rw [hlk0] at hk
      have hnov : ¬(k = "overrides" ∨ k = "flags") := by
        rintro (hh | hh)
        · exact hk1 hh
        · exact hk2 hh
      rw [hrk0, cw1 hnov, Option.some.inj hk]
    · rw [hlkne k hkk] at hk
      exact h2 k v hk hk1 hk2
  · intro k m c hkov hk hc
    by_cases hkk : k = k0
    · subst hkk
      rw [hlk0] at hk
      rw [hrk0, cw2 m c hkov (Option.some.inj hk) hc]
    · rw [hlkne k hkk] at hk
      refine h3 k m c hkov hk ?_
      rw [dlookup_dinsert_ne _ _ _ _ fun hh => hkk hh.symm]
      exact hc
  · intro k m hkov hk hc
    by_cases hkk : k = k0
    · subst hkk
      rw [hlk0] at hk
      rw [hrk0, cw3 m hkov (Option.some.inj hk) hc]
    · rw [hlkne k hkk] at hk
      refine h4 k m hkov hk ?_
      rw [dlookup_dinsert_ne _ _ _ _ fun hh => hkk hh.symm]
      exact hc

theorem applyUpdates_cons_generic (k0 : String) (v0 w0 : Val)
    (rest acc : List (String × Val))
    (ih : ∀ acc, UpdOk rest acc → ∃ r, applyUpdates acc rest = some r ∧ UpdSpec rest acc r)
    (hdr : dhas rest k0 = false)
    (hok : UpdOk ((k0, v0) :: rest) acc)
    (hstep : applyUpdates acc ((k0, v0) :: rest) = applyUpdates (dinsert acc k0 w0) rest)
    (cw1 : ¬(k0 = "overrides" ∨ k0 = "flags") → w0 = v0)
    (cw2 : ∀ m c, (k0 = "overrides" ∨ k0 = "flags") → v0 = Val.vdict m →
      dlookup acc k0 = some (Val.vdict c) → w0 = Val.vdict (dupdate c m))
    (cw3 : ∀ m, (k0 = "overrides" ∨ k0 = "flags") → v0 = Val.vdict m →
      dlookup acc k0 = none → w0 = Val.vdict (dupdate [] m)) :
    ∃ r, applyUpdates acc ((k0, v0) :: rest) = some r ∧ UpdSpec ((k0, v0) :: rest) acc r := by
  rcases ih (dinsert acc k0 w0) (UpdOk_cons_step hdr hok) with ⟨r, hr, hspec⟩
  exact ⟨r, by rw [hstep]; exact hr, UpdSpec_cons_step hdr hspec cw1 cw2 cw3⟩

/-- Success and merge contract of the update loop, for updates with unique
keys applied to a well-formed state. -/
theorem applyUpdates_spec : ∀ (updates : List (String × Val)),
    (updates.map Prod.fst).Nodup →
    ∀ acc : List (String × Val), UpdOk updates acc →
    ∃ r, applyUpdates acc updates = some r ∧ UpdSpec updates acc r := by
  intro updates
  induction updates with
  | nil =>
    intro _ acc _
    refine ⟨acc, rfl, fun k _ => rfl, ?_, ?_, ?_⟩
    · intro k v hk
      cases hk
    · intro k m c _ hk
      cases hk
    · intro k m _ hk
      cases hk
  | cons p rest ih =>
    intro hnd acc hok
    obtain ⟨k0, v0⟩ := p
    rw [List.map_cons, List.nodup_cons] at hnd
    have hdr : dhas rest k0 = false := by
      rw [dhas_eq_false_iff]
      intro q hq hqk
      have hq1 : q.1 ∈ rest.map Prod.fst := List.mem_map_of_mem Prod.fst hq
      rw [hqk] at hq1
      exact hnd.1 hq1
    have ih' := ih hnd.2
    by_cases hov : k0 = "overrides" ∨ k0 = "flags"
    · cases v0 with
      | vdict m0 =>
        have hlk0 : dlookup ((k0, Val.vdict m0) :: rest) k0 = some (Val.vdict m0) := by
          rw [show dlookup ((k0, Val.vdict m0) :: rest) k0 =
            if k0 = k0 then some (Val.vdict m0) else dlookup rest k0 from rfl, if_pos rfl]
        rcases hok k0 m0 hov hlk0 with hnone | ⟨c, hc⟩
        · refine applyUpdates_cons_generic k0 (Val.vdict m0) (Val.vdict (dupdate [] m0))
            rest acc ih' hdr hok ?_ ?_ ?_ ?_
          · rw [show applyUpdates acc ((k0, Val.vdict m0) :: rest) =
              (if k0 = "overrides" ∨ k0 = "flags" then
                match dlookup acc k0 with
                | some (Val.vdict c) =>
                  applyUpdates (dinsert acc k0 (Val.vdict (dupdate c m0))) rest
                | some _ => none
                | none => applyUpdates (dinsert acc k0 (Val.vdict (dupdate [] m0))) rest
              else applyUpdates (dinsert acc k0 (Val.vdict m0)) rest) from rfl,
              if_pos hov, hnone]
          · intro hh
            exact absurd hov hh
          · intro m c _ _ hc'
            rw [hnone] at hc'
            cases hc'
          · intro m _ hm _
            rw [Val.vdict.inj hm]
        · refine applyUpdates_cons_generic k0 (Val.vdict m0) (Val.vdict (dupdate c m0))
            rest acc ih' hdr hok ?_ ?_ ?_ ?_
          · rw [show applyUpdates acc ((k0, Val.vdict m0) :: rest) =
              (if k0 = "overrides" ∨ k0 = "flags" then
                match dlookup acc k0 with
                | some (Val.vdict c) =>
                  applyUpdates (dinsert acc k0 (Val.vdict (dupdate c m0))) rest
                | some _ => none
                | none => applyUpdates (dinsert acc k0 (Val.vdict (dupdate [] m0))) rest
              else applyUpdates (dinsert acc k0 (Val.vdict m0)) rest) from rfl,
              if_pos hov, hc]
          · intro hh
            exact absurd hov hh
          · intro m c' _ hm hc'
            rw [hc] at hc'
            rw [Val.vdict.inj hm, Val.vdict.inj (Option.some.inj hc')]
          · intro m _ _ hc'
            rw [hc] at hc'
            cases hc'
      | vnull =>
        refine applyUpdates_cons_generic k0 Val.vnull Val.vnull rest acc ih' hdr hok
          ?_ (fun _ => rfl) ?_ ?_
        · rw [show applyUpdates acc ((k0, Val.vnull) :: rest) =
            (if k0 = "overrides" ∨ k0 = "flags" then
              applyUpdates (dinsert acc k0 Val.vnull) rest
            else applyUpdates (dinsert acc k0 Val.vnull) rest) from rfl,
            if_pos hov]
        · intro m c _ hm
          cases hm
        · intro m _ hm
          cases hm
      | vbool b =>
        refine applyUpdates_cons_generic k0 (Val.vbool b) (Val.vbool b) rest acc ih' hdr hok
          ?_ (fun _ => rfl) ?_ ?_
        · rw [show applyUpdates acc ((k0, Val.vbool b) :: rest) =
            (if k0 = "overrides" ∨ k0 = "flags" then
              applyUpdates (dinsert acc k0 (Val.vbool b)) rest
            else applyUpdates (dinsert acc k0 (Val.vbool b)) rest) from rfl,
            if_pos hov]
        · intro m c _ hm
          cases hm
        · intro m _ hm
          cases hm
      | vnum q =>
        refine applyUpdates_cons_generic k0 (Val.vnum q) (Val.vnum q) rest acc ih' hdr hok
          ?_ (fun _ => rfl) ?_ ?_
        · rw [show applyUpdates acc ((k0, Val.vnum q) :: rest) =
            (if k0 = "overrides" ∨ k0 = "flags" then
              applyUpdates (dinsert acc k0 (Val.vnum q)) rest
            else applyUpdates (dinsert acc k0 (Val.vnum q)) rest) from rfl,
            if_pos hov]
        · intro m c _ hm
          cases hm
        · intro m _ hm
          cases hm
      | vstr st =>
        refine applyUpdates_cons_generic k0 (Val.vstr st) (Val.vstr st) rest acc ih' hdr hok
          ?_ (fun _ => rfl) ?_ ?_
        · rw [show applyUpdates acc ((k0, Val.vstr st) :: rest) =
            (if k0 = "overrides" ∨ k0 = "flags" then
              applyUpdates (dinsert acc k0 (Val.vstr st)) rest
            else applyUpdates (dinsert acc k0 (Val.vstr st)) rest) from rfl,
            if_pos hov]
        · intro m c _ hm
          cases hm
        · intro m _ hm
          cases hm
      | vlist l =>
        refine applyUpdates_cons_generic k0 (Val.vlist l) (Val.vlist l) rest acc ih' hdr hok
          ?_ (fun _ => rfl) ?_ ?_
        · rw [show applyUpdates acc ((k0, Val.vlist l) :: rest) =
            (if k0 = "overrides" ∨ k0 = "flags" then
              applyUpdates (dinsert acc k0 (Val.vlist l)) rest
            else applyUpdates (dinsert acc k0 (Val.vlist l)) rest) from rfl,
            if_pos hov]
        · intro m c _ hm
          cases hm
        · intro m _ hm
          cases hm
    · refine applyUpdates_cons_generic k0 v0 v0 rest acc ih' hdr hok
        ?_ (fun _ => rfl) ?_ ?_
      · cases v0 with
        | vdict m0 =>
          rw [show applyUpdates acc ((k0, Val.vdict m0) :: rest) =
            (if k0 = "overrides" ∨ k0 = "flags" then
              match dlookup acc k0 with
              | some (Val.vdict c) =>
                applyUpdates (dinsert acc k0 (Val.vdict (dupdate c m0))) rest
              | some _ => none
              | none => applyUpdates (dinsert acc k0 (Val.vdict (dupdate [] m0))) rest
            else applyUpdates (dinsert acc k0 (Val.vdict m0)) rest) from rfl,
            if_neg hov]
        | vnull =>
          rw [show applyUpdates acc ((k0, Val.vnull) :: rest) =
            (if k0 = "overrides" ∨ k0 = "flags" then
              applyUpdates (dinsert acc k0 Val.vnull) rest
            else applyUpdates (dinsert acc k0 Val.vnull) rest) from rfl,
            if_neg hov]
        | vbool b =>
          rw [show applyUpdates acc ((k0, Val.vbool b) :: rest) =
            (if k0 = "overrides" ∨ k0 = "flags" then
              applyUpdates (dinsert acc k0 (Val.vbool b)) rest
            else applyUpdates (dinsert acc k0 (Val.vbool b)) rest) from rfl,
            if_neg hov]
        | vnum q =>
          rw [show applyUpdates acc ((k0, Val.vnum q) :: rest) =
            (if k0 = "overrides" ∨ k0 = "flags" then
              applyUpdates (dinsert acc k0 (Val.vnum q)) rest
            else applyUpdates (dinsert acc k0 (Val.vnum q)) rest) from rfl,
            if_neg hov]
        | vstr st =>
          rw [show applyUpdates acc ((k0, Val.vstr st) :: rest) =
            (if k0 = "overrides" ∨ k0 = "flags" then
              applyUpdates (dinsert acc k0 (Val.vstr st)) rest
            else applyUpdates (dinsert acc k0 (Val.vstr st)) rest) from rfl,
            if_neg hov]
        | vlist l =>
          rw [show applyUpdates acc ((k0, Val.vlist l) :: rest) =
            (if k0 = "overrides" ∨ k0 = "flags" then
              applyUpdates (dinsert acc k0 (Val.vlist l)) rest
            else applyUpdates (dinsert acc k0 (Val.vlist l)) rest) from rfl,
            if_neg hov]
      · intro m c hkov
        exact absurd hkov hov
      · intro m hkov
        exact absurd hkov hov

/-- C8 (amended).  `update_item_state` overwrites scalar fields present in
the update, shallow-merges dict-valued `overrides`/`flags` (existing keys
kept unless the same key appears in the update, pointwise by the last two
conjuncts), leaves fields not named in the update unchanged, and refreshes
`updated_at` — provided the update itself does not name `updated_at`, in
which case the scalar-overwrite rule wins instead. -/
theorem update_item_state_spec (item : List (String × Val)) (now : String)
    (updates : List (String × Val))
    (hnodup : (updates.map Prod.fst).Nodup)
    (hupd : dhas updates "updated_at" = false)
    (hok : UpdOk updates item) :
    (∃ r, update_item_state item now updates = some r
      ∧ dlookup r "updated_at" = some (Val.vstr now)
      ∧ (∀ k, dhas updates k = false → k ≠ "updated_at" → dlookup r k = dlookup item k)
      ∧ (∀ k v, dlookup updates k = some v → k ≠ "overrides" → k ≠ "flags" →
          dlookup r k = some v)
      ∧ (∀ k m c, (k = "overrides" ∨ k = "flags") → dlookup updates k = some (Val.vdict m) →
          dlookup item k = some (Val.vdict c) → dlookup r k = some (Val.vdict (dupdate c m))))
    ∧ (∀ (c m : List (String × Val)) (key : String),
        dhas m key = false → dlookup (dupdate c m) key = dlookup c key)
    ∧ (∀ (c m : List (String × Val)) (key : String) (v : Val),
        (m.map Prod.fst).Nodup → dlookup m key = some v → dlookup (dupdate c m) key = some v) := by
  refine ⟨?_, fun c m key hm => dlookup_dupdate_notmem m key hm c,
    fun c m key v hnd hv => dlookup_dupdate_mem m key v hnd hv c⟩
  have hne : ∀ k : String, (k = "overrides" ∨ k = "flags") → k ≠ "updated_at" := by
    rintro k (rfl | rfl) <;> decide
  have hok0 : UpdOk updates (dinsert item "updated_at" (Val.vstr now)) := by
    intro k m hkov hk
    rw [dlookup_dinsert_ne _ _ _ _ fun hh => hne k hkov hh.symm]
    exact hok k m hkov hk
  rcases applyUpdates_spec updates hnodup (dinsert item "updated_at" (Val.vstr now)) hok0
    with ⟨r, hr, h1, h2, h3, _⟩
  refine ⟨r, hr, ?_, ?_, h2, ?_⟩
  · rw [h1 "updated_at" hupd, dlookup_dinsert_self]
  · intro k hk hkup
    rw [h1 k hk, dlookup_dinsert_ne _ _ _ _ fun hh => hkup hh.symm]
  · intro k m c hkov hk hc
    refine h3 k m c hkov hk ?_
    rw [dlookup_dinsert_ne _ _ _ _ fun hh => hne k hkov hh.symm]
    exact hc

/-- C8 counterexample: an update that itself names `updated_at` wins over the
refresh, so `updated_at` is not refreshed on that call. -/
theorem update_item_state_updated_at_counterexample :
    dlookup ((update_item_state [("notes", Val.vstr "n")] "T1"
      [("updated_at", Val.vstr "T0")]).getD []) "updated_at" = some (Val.vstr "T0")
    ∧ "T0" ≠ "T1" := by
  constructor
  · rfl
  · decide

/-- Witness for the amended C8 at the empty state and empty update. -/
theorem update_item_state_spec_witness :
    (∃ r, update_item_state [] "T" [] = some r
      ∧ dlookup r "updated_at" = some (Val.vstr "T")
      ∧ (∀ k, dhas [] k = false → k ≠ "updated_at" → dlookup r k = dlookup [] k)
      ∧ (∀ k v, dlookup [] k = some v → k ≠ "overrides" → k ≠ "flags" →
          dlookup r k = some v)
      ∧ (∀ k m c, (k = "overrides" ∨ k = "flags") → dlookup [] k = some (Val.vdict m) →
          dlookup [] k = some (Val.vdict c) → dlookup r k = some (Val.vdict (dupdate c m))))
    ∧ (∀ (c m : List (String × Val)) (key : String),
        dhas m key = false → dlookup (dupdate c m) key = dlookup c key)
    ∧ (∀ (c m : List (String × Val)) (key : String) (v : Val),
        (m.map Prod.fst).Nodup → dlookup m key = some v → dlookup (dupdate c m) key = some v) :=
  update_item_state_spec [] "T" [] (by decide) (by decide) (fun _ _ _ hk => nomatch hk)

/-- Every key other than `flags` and `updated_at` is untouched by the
manual-status endpoint path. -/
theorem update_manual_status_preserves (s : List (String × Val)) (ms now : String)
    (s' : List (String × Val)) (h : update_manual_status s ms now = some s') :
    ∀ k, k ≠ "flags" → k ≠ "updated_at" → dlookup s' k = dlookup s k := by
  have hmain : ∃ f2, update_item_state (dinsert s "flags" (Val.vdict f2)) now
      [("flags", Val.vdict f2)] = some s' := by
    unfold update_manual_status at h
    split at h
    · split at h
      · exact ⟨_, h⟩
      · cases h
    · split at h
      · exact ⟨_, h⟩
      · cases h
    · cases h
  rcases hmain with ⟨f2, hupd⟩
  have hok : UpdOk [("flags", Val.vdict f2)] (dinsert s "flags" (Val.vdict f2)) := by
    intro k m hkov hk
    rcases hkov with hk1 | hk1
    · subst hk1
      rw [show dlookup [("flags", Val.vdict f2)] "overrides" =
        if "flags" = "overrides" then some (Val.vdict f2) else none from rfl,
        if_neg (by decide)] at hk
      cases hk
    · subst hk1
      exact Or.inr ⟨f2, dlookup_dinsert_self _ _ _⟩
  rcases (update_item_state_spec (dinsert s "flags" (Val.vdict f2)) now
    [("flags", Val.vdict f2)] (by simp) rfl hok).1
    with ⟨r, hr, _, hframe, _, _⟩
  have hrs : r = s' := by
    rw [hr] at hupd
    exact Option.some.inj hupd
  intro k hk1 hk2
  have hdh : dhas [("flags", Val.vdict f2)] k = false := by
    rw [dhas_eq_false_iff]
    intro p hp
    rw [List.mem_singleton.mp hp]
    exact fun hh => hk1 hh.symm
  have hfr := hframe k hdh hk2
  rw [hrs] at hfr
  rw [hfr, dlookup_dinsert_ne _ _ _ _ fun hh => hk1 hh.symm]

/-- C5.  Setting `flags.manual_status` through the state-update endpoint
changes neither the stored validation nor any rerun output: the recomputed
qualification, the generated SVG/bitmap artifacts and the ShapeLibrary hash
delta are identical before and after the toggle. -/
theorem rerun_manual_status_independent (env : RerunEnv) (s : List (String × Val))
    (ms now : String) (s' : List (String × Val))
    (h : update_manual_status s ms now = some s') :
    dlookup s' "validation" = dlookup s "validation"
    ∧ rerunVisible env s' = rerunVisible env s := by
  have hp := update_manual_status_preserves s ms now s' h
  refine ⟨hp "validation" (by decide) (by decide), ?_⟩
  unfold rerunVisible
  rw [hp "source_path" (by decide) (by decide), hp "oled_bbox" (by decide) (by decide),
    hp "normalize_params" (by decide) (by decide), hp "overrides" (by decide) (by decide)]

/-- Witness for C5 at a concrete state and a concrete manual-status value. -/
theorem rerun_manual_status_independent_witness :
    dlookup [("notes", Val.vstr "n"),
        ("flags", Val.vdict [("manual_status", Val.vstr "ok")]),
        ("updated_at", Val.vstr "T")] "validation"
      = dlookup [("notes", Val.vstr "n")] "validation"
    ∧ rerunVisible
        ⟨fun _ => false, fun _ => false, fun _ => (0, 0),
         fun _ => (none, 0, []), fun _ => 0, fun _ _ => [], fun _ => 0,
         fun _ => [], fun _ => ""⟩
        [("notes", Val.vstr "n"),
         ("flags", Val.vdict [("manual_status", Val.vstr "ok")]),
         ("updated_at", Val.vstr "T")]
      = rerunVisible
        ⟨fun _ => false, fun _ => false, fun _ => (0, 0),
         fun _ => (none, 0, []), fun _ => 0, fun _ _ => [], fun _ => 0,
         fun _ => [], fun _ => ""⟩
        [("notes", Val.vstr "n")] :=
  rerun_manual_status_independent _ [("notes", Val.vstr "n")] "ok" "T" _ rfl
